import Mathlib

/-!
Verification of the rlox scanner (`src/scanner.rs`) and recursive-descent
expression parser (`src/ast.rs`).

The Rust code is shallowly embedded: the `Scanner` and `Parser` structs become
Lean structures, `&mut self` methods become state-passing functions, and the
`while` loops become recursive helper functions (`*_loop`).  `Vec<char>`
indexing that the Rust code performs is modelled with `List.getElem?`; in the
scanner every index is guarded by the code itself, so the `getD` default is
never reachable, while in the parser an unguarded index (a potential Rust
panic) is modelled explicitly by the `POut.oob` outcome.  The `f64` payload of
`TokenType::Number` is modelled as `ℚ`: `str::parse::<f64>` applied to the
digit strings the scanner produces rounds exactly for every literal appearing
in the claims, so the rational value is faithful there.  `println!`-based
diagnostics (`Scanner::error`) are modelled by accumulating `(line, message)`
pairs in an `errors` field.  Mutual recursion of the grammar functions goes
through an explicit fuel parameter; running out of fuel is a distinguished
outcome `POut.fuelOut`, and `parser_fuel_spec` below proves it is unreachable
for the fuel `parse` supplies.
-/

/-- Token kinds, from `enum TokenType` in `src/scanner.rs`. -/
inductive TokenType where
  | LeftParen
  | RightParen
  | LeftBrace
  | RightBrace
  | Comma
  | Dot
  | Minus
  | Plus
  | Semicolon
  | Slash
  | Star
  | Bang
  | BangEqual
  | Equal
  | EqualEqual
  | Greater
  | GreaterEqual
  | Less
  | LessEqual
  | Identifier (text : List Char)
  | String (text : List Char)
  | Number (value : ℚ)
  | And
  | Class
  | Else
  | False
  | Fun
  | For
  | If
  | Nil
  | Or
  | Print
  | Return
  | Super
  | This
  | True
  | Var
  | While
  | EOF
deriving DecidableEq, Repr

/-- `struct Token` from `src/scanner.rs`. -/
structure Token where
  token_type : TokenType
  lexeme : List Char
  line : Nat
deriving DecidableEq, Repr

/-- `struct Scanner` from `src/scanner.rs`; the `println!` diagnostics of
`Scanner::error` are modelled by the extra `errors` field. -/
structure Scanner where
  source : List Char
  tokens : List Token
  start : Nat
  current : Nat
  line : Nat
  errors : List (Nat × String)
deriving DecidableEq, Repr

/-- The contiguous slice `source[a..b]` of a `Vec<char>`. -/
def source_slice (s : List Char) (a b : Nat) : List Char :=
  (s.take b).drop a

/-- `Scanner::is_digit`. -/
def is_digit (c : Char) : Bool :=
  decide ('0' ≤ c) && decide (c ≤ '9')

/-- `Scanner::is_alpha`. -/
def is_alpha (c : Char) : Bool :=
  (decide ('a' ≤ c) && decide (c ≤ 'z')) ||
  (decide ('A' ≤ c) && decide (c ≤ 'Z')) ||
  decide (c = '_')

/-- `Scanner::is_alpha_numeric`. -/
def is_alpha_numeric (c : Char) : Bool :=
  is_alpha c || is_digit c

/-- The keyword table built in `Scanner::new`. -/
def reserved : List (List Char × TokenType) :=
  [("and".toList, TokenType.And), ("class".toList, TokenType.Class),
   ("else".toList, TokenType.Else), ("false".toList, TokenType.False),
   ("for".toList, TokenType.For), ("fun".toList, TokenType.Fun),
   ("if".toList, TokenType.If), ("nil".toList, TokenType.Nil),
   ("or".toList, TokenType.Or), ("print".toList, TokenType.Print),
   ("return".toList, TokenType.Return), ("super".toList, TokenType.Super),
   ("this".toList, TokenType.This), ("true".toList, TokenType.True),
   ("var".toList, TokenType.Var), ("while".toList, TokenType.While)]

/-- `self.reserved.get(&source_slice)` in `Scanner::identifier`. -/
def reserved_lookup (s : List Char) : Option TokenType :=
  (reserved.find? (fun p => decide (p.1 = s))).map Prod.snd

/-- The value of a digit character. -/
def digit_val (c : Char) : Nat := c.toNat - '0'.toNat

/-- The natural number denoted by a string of decimal digits. -/
def nat_of_digits (s : List Char) : Nat :=
  s.foldl (fun a c => a * 10 + digit_val c) 0

/-- Model of `source_slice.parse::<f64>()` in `Scanner::number`, on the slices that
function produces (a run of digits, optionally `.` and more digits); the
value is the exact decimal rational. -/
def parse_decimal (s : List Char) : Option ℚ :=
  let ip := s.takeWhile is_digit
  let rest := s.dropWhile is_digit
  if ip = [] then none
  else
    match rest with
    | [] => some (nat_of_digits ip : ℚ)
    | '.' :: fp =>
        if fp ≠ [] ∧ fp.all is_digit then
          some (mkRat (nat_of_digits (ip ++ fp)) (10 ^ fp.length))
        else none
    | _ => none

/-- `Scanner::new` (minus the keyword table, which is the constant `reserved`). -/
def Scanner.new (source : List Char) : Scanner :=
  { source := source, tokens := [], start := 0, current := 0, line := 1, errors := [] }

/-- `Scanner::is_at_end`. -/
def Scanner.is_at_end (st : Scanner) : Bool :=
  decide (st.source.length ≤ st.current)

/-- `Scanner::advance`: returns the character at `current` and increments it. -/
def Scanner.advance (st : Scanner) : Char × Scanner :=
  ((st.source[st.current]?).getD '\x00', { st with current := st.current + 1 })

/-- `Scanner::peek`. -/
def Scanner.peek (st : Scanner) : Char :=
  if st.is_at_end then '\x00' else (st.source[st.current]?).getD '\x00'

/-- `Scanner::peek_next`. -/
def Scanner.peek_next (st : Scanner) : Char :=
  if st.source.length ≤ st.current + 1 then '\x00'
  else (st.source[st.current + 1]?).getD '\x00'

/-- `Scanner::match_char`. -/
def Scanner.match_char (st : Scanner) (expected : Char) : Bool × Scanner :=
  if st.is_at_end then (false, st)
  else if (st.source[st.current]?).getD '\x00' ≠ expected then (false, st)
  else (true, { st with current := st.current + 1 })

/-- `Scanner::add_token`: the lexeme is `source[start..current]`. -/
def Scanner.add_token (st : Scanner) (token : TokenType) : Scanner :=
  { st with tokens := st.tokens ++ [⟨token, source_slice st.source st.start st.current, st.line⟩] }

/-- `Scanner::error`: the diagnostic `println!` modelled as an appended record. -/
def Scanner.error (st : Scanner) (message : String) : Scanner :=
  { st with errors := st.errors ++ [(st.line, message)] }

/-- The `while` loop of `Scanner::string`: consume until `"` or end of input,
counting newlines.  `self.advance()` is inlined as the `current` increment.
The fuel argument is an embedding artifact: every iteration consumes one
in-bounds character, so the `source.length + 1` supplied at the call site
always outlasts the loop (see `string_loop_spec`). -/
def Scanner.string_loop : Nat → Scanner → Scanner
  | 0, st => st
  | fuel + 1, st =>
      if (st.peek != '"') && !st.is_at_end then
        if st.peek = '\n' then
          Scanner.string_loop fuel { st with line := st.line + 1, current := st.current + 1 }
        else
          Scanner.string_loop fuel { st with current := st.current + 1 }
      else st

/-- `Scanner::string`. -/
def Scanner.string (st : Scanner) : Scanner :=
  let st := Scanner.string_loop (st.source.length + 1) st
  if st.is_at_end then st.error "Unterminated string."
  else
    let st := { st with current := st.current + 1 }
    st.add_token (TokenType.String (source_slice st.source (st.start + 1) (st.current - 1)))

/-- The digit-consuming `while` loops of `Scanner::number` (fuel as in
`string_loop`). -/
def Scanner.digit_loop : Nat → Scanner → Scanner
  | 0, st => st
  | fuel + 1, st =>
      if is_digit st.peek then Scanner.digit_loop fuel { st with current := st.current + 1 }
      else st

/-- `Scanner::number`. -/
def Scanner.number (st : Scanner) : Scanner :=
  let st := Scanner.digit_loop (st.source.length + 1) st
  let st :=
    if (st.peek = '.') ∧ is_digit st.peek_next then
      Scanner.digit_loop (st.source.length + 1) { st with current := st.current + 1 }
    else st
  match parse_decimal (source_slice st.source st.start st.current) with
  | some d => st.add_token (TokenType.Number d)
  | none => (st.error "Failed to parse digit").add_token (TokenType.Number 0)

/-- The `while` loop of `Scanner::identifier` (fuel as in `string_loop`). -/
def Scanner.ident_loop : Nat → Scanner → Scanner
  | 0, st => st
  | fuel + 1, st =>
      if is_alpha_numeric st.peek then
        Scanner.ident_loop fuel { st with current := st.current + 1 }
      else st

/-- `Scanner::identifier`. -/
def Scanner.identifier (st : Scanner) : Scanner :=
  let st := Scanner.ident_loop (st.source.length + 1) st
  match reserved_lookup (source_slice st.source st.start st.current) with
  | some t => st.add_token t
  | none => st.add_token (TokenType.Identifier (source_slice st.source st.start st.current))

/-- The comment-skipping `while` loop in the `/` arm of `Scanner::scan_token`
(fuel as in `string_loop`). -/
def Scanner.comment_loop : Nat → Scanner → Scanner
  | 0, st => st
  | fuel + 1, st =>
      if (st.peek != '\n') && !st.is_at_end then
        Scanner.comment_loop fuel { st with current := st.current + 1 }
      else st

/-- `Scanner::scan_token`. -/
def Scanner.scan_token (st : Scanner) : Scanner :=
  let (c, st) := st.advance
  match c with
  | '(' => st.add_token TokenType.LeftParen
  | ')' => st.add_token TokenType.RightParen
  | '{' => st.add_token TokenType.LeftBrace
  | '}' => st.add_token TokenType.RightBrace
  | ',' => st.add_token TokenType.Comma
  | '.' => st.add_token TokenType.Dot
  | '-' => st.add_token TokenType.Minus
  | '+' => st.add_token TokenType.Plus
  | ';' => st.add_token TokenType.Semicolon
  | '*' => st.add_token TokenType.Star
  | '!' =>
      let (m, st) := st.match_char '='
      if m then st.add_token TokenType.BangEqual else st.add_token TokenType.Bang
  | '=' =>
      let (m, st) := st.match_char '='
      if m then st.add_token TokenType.EqualEqual else st.add_token TokenType.Equal
  | '<' =>
      let (m, st) := st.match_char '='
      if m then st.add_token TokenType.LessEqual else st.add_token TokenType.Less
  | '>' =>
      let (m, st) := st.match_char '='
      if m then st.add_token TokenType.GreaterEqual else st.add_token TokenType.Greater
  | '/' =>
      let (m, st) := st.match_char '/'
      if m then Scanner.comment_loop (st.source.length + 1) st
      else st.add_token TokenType.Slash
  | ' ' => st
  | '\t' => st
  | '\r' => st
  | '\n' => { st with line := st.line + 1 }
  | '"' => st.string
  | c =>
      if is_digit c then st.number
      else if is_alpha c then st.identifier
      else st.error "Unknown character"

/-- The `while !self.is_at_end()` loop of `Scanner::scan_tokens`.  The fuel
argument is an embedding artifact; `scan_loop_spec` proves the fuel supplied by
`scan_tokens` is enough to drive the cursor to the end of the input. -/
def Scanner.scan_loop : Nat → Scanner → Scanner
  | 0, st => st
  | fuel + 1, st =>
      if !st.is_at_end then
        Scanner.scan_loop fuel (Scanner.scan_token { st with start := st.current })
      else st

/-- `Scanner::scan_tokens`. -/
def Scanner.scan_tokens (st : Scanner) : Scanner :=
  (Scanner.scan_loop (st.source.length + 1) st).add_token TokenType.EOF

/-- The external scanning interface (`Scanner::new` + `scan_tokens`). -/
def scan (source : List Char) : Scanner :=
  (Scanner.new source).scan_tokens

/-- `enum Expr` from `src/ast.rs`. -/
inductive Expr where
  | Binary (left : Expr) (operator : Token) (right : Expr)
  | Grouping (inner : Expr)
  | Literal (token : Token)
  | Unary (operator : Token) (operand : Expr)
deriving DecidableEq, Repr

/-- `struct Parser` from `src/ast.rs`. -/
structure Parser where
  current : Nat
  tokens : List Token
deriving DecidableEq, Repr

/-- `Parser::new`. -/
def Parser.new (tokens : List Token) : Parser :=
  { current := 0, tokens := tokens }

/-- `Parser::peek` (`self.tokens[self.current]`): `none` models the Rust
index-out-of-bounds panic. -/
def Parser.peek (p : Parser) : Option Token :=
  p.tokens[p.current]?

/-- `Parser::previous` (`self.tokens[self.current - 1]`): at `current = 0` the
Rust `usize` subtraction panics (or wraps to an out-of-bounds index), modelled
as `none`. -/
def Parser.previous (p : Parser) : Option Token :=
  if p.current = 0 then none else p.tokens[p.current - 1]?

/-- `Parser::is_at_end`: the current token is `EOF`. -/
def Parser.is_at_end (p : Parser) : Option Bool :=
  p.peek.map (fun t => decide (t.token_type = TokenType.EOF))

/-- `Parser::advance`. -/
def Parser.advance (p : Parser) : Option (Token × Parser) :=
  match p.is_at_end with
  | none => none
  | some b =>
      let p := if b then p else { p with current := p.current + 1 }
      p.previous.map (fun t => (t, p))

/-- `Parser::check`. -/
def Parser.check (p : Parser) (token_type : TokenType) : Option Bool :=
  match p.is_at_end with
  | none => none
  | some true => some false
  | some false => p.peek.map (fun t => decide (t.token_type = token_type))

/-- `Parser::match_token`: the `for` loop over candidate token types. -/
def Parser.match_token : Parser → List TokenType → Option (Bool × Parser)
  | p, [] => some (false, p)
  | p, token :: rest =>
      match p.check token with
      | none => none
      | some true => p.advance.map (fun x => (true, x.2))
      | some false => p.match_token rest

/-- `Parser::consume`. -/
def Parser.consume (p : Parser) (token_type : TokenType) (message : String) :
    Option ((Except String Token) × Parser) :=
  match p.check token_type with
  | none => none
  | some true => p.advance.map (fun x => (Except.ok x.1, x.2))
  | some false => some (Except.error message, p)

instance {ε α : Type} [DecidableEq ε] [DecidableEq α] : DecidableEq (Except ε α) := fun a b =>
  match a, b with
  | Except.ok x, Except.ok y =>
      if h : x = y then Decidable.isTrue (congrArg Except.ok h)
      else Decidable.isFalse (fun hh => h (Except.ok.inj hh))
  | Except.error x, Except.error y =>
      if h : x = y then Decidable.isTrue (congrArg Except.error h)
      else Decidable.isFalse (fun hh => h (Except.error.inj hh))
  | Except.ok _, Except.error _ => Decidable.isFalse (fun hh => Except.noConfusion hh)
  | Except.error _, Except.ok _ => Decidable.isFalse (fun hh => Except.noConfusion hh)

/-- Outcome of a grammar-level function: a normal Rust return
(`Result<Expr, &'static str>` plus the mutated parser), a Rust index panic
(`oob`), or exhaustion of the embedding's fuel (`fuelOut`, proven unreachable
for the fuel `parse` supplies). -/
inductive POut where
  | ok (result : Except String Expr) (p : Parser)
  | oob
  | fuelOut
deriving DecidableEq, Repr

/-- The `if let TokenType::Number(_)` test in `Parser::primary`. -/
def TokenType.is_number : TokenType → Bool
  | TokenType.Number _ => true
  | _ => false

/-- The `if let TokenType::String(_)` test in `Parser::primary`. -/
def TokenType.is_string : TokenType → Bool
  | TokenType.String _ => true
  | _ => false

mutual

/-- `Parser::expression`. -/
def Parser.expression : Nat → Parser → POut
  | 0, _ => POut.fuelOut
  | fuel + 1, p => Parser.equality fuel p

/-- `Parser::equality` (operand, then the folding loop). -/
def Parser.equality : Nat → Parser → POut
  | 0, _ => POut.fuelOut
  | fuel + 1, p =>
      match Parser.comparison fuel p with
      | POut.oob => POut.oob
      | POut.fuelOut => POut.fuelOut
      | POut.ok expr p => Parser.equality_loop fuel expr p

/-- The `while self.match_token(...)` loop of `Parser::equality`. -/
def Parser.equality_loop : Nat → Except String Expr → Parser → POut
  | 0, _, _ => POut.fuelOut
  | fuel + 1, expr, p =>
      match p.match_token [TokenType.BangEqual, TokenType.EqualEqual] with
      | none => POut.oob
      | some (false, p) => POut.ok expr p
      | some (true, p) =>
          match p.previous with
          | none => POut.oob
          | some operator =>
              match Parser.comparison fuel p with
              | POut.oob => POut.oob
              | POut.fuelOut => POut.fuelOut
              | POut.ok right p =>
                  match right, expr with
                  | Except.ok r, Except.ok e =>
                      Parser.equality_loop fuel
                        (Except.ok (Expr.Binary e operator r)) p
                  | _, _ => POut.ok (Except.error "expecting equality") p

/-- `Parser::comparison`. -/
def Parser.comparison : Nat → Parser → POut
  | 0, _ => POut.fuelOut
  | fuel + 1, p =>
      match Parser.addition fuel p with
      | POut.oob => POut.oob
      | POut.fuelOut => POut.fuelOut
      | POut.ok expr p => Parser.comparison_loop fuel expr p

/-- The `while self.match_token(...)` loop of `Parser::comparison`. -/
def Parser.comparison_loop : Nat → Except String Expr → Parser → POut
  | 0, _, _ => POut.fuelOut
  | fuel + 1, expr, p =>
      match p.match_token [TokenType.Greater, TokenType.GreaterEqual,
                           TokenType.Less, TokenType.LessEqual] with
      | none => POut.oob
      | some (false, p) => POut.ok expr p
      | some (true, p) =>
          match p.previous with
          | none => POut.oob
          | some operator =>
              match Parser.addition fuel p with
              | POut.oob => POut.oob
              | POut.fuelOut => POut.fuelOut
              | POut.ok right p =>
                  match right, expr with
                  | Except.ok r, Except.ok e =>
                      Parser.comparison_loop fuel
                        (Except.ok (Expr.Binary e operator r)) p
                  | _, _ => POut.ok (Except.error "expecting comparison") p

/-- `Parser::addition`. -/
def Parser.addition : Nat → Parser → POut
  | 0, _ => POut.fuelOut
  | fuel + 1, p =>
      match Parser.multiplication fuel p with
      | POut.oob => POut.oob
      | POut.fuelOut => POut.fuelOut
      | POut.ok expr p => Parser.addition_loop fuel expr p

/-- The `while self.match_token(...)` loop of `Parser::addition`. -/
def Parser.addition_loop : Nat → Except String Expr → Parser → POut
  | 0, _, _ => POut.fuelOut
  | fuel + 1, expr, p =>
      match p.match_token [TokenType.Plus, TokenType.Minus] with
      | none => POut.oob
      | some (false, p) => POut.ok expr p
      | some (true, p) =>
          match p.previous with
          | none => POut.oob
          | some operator =>
              match Parser.multiplication fuel p with
              | POut.oob => POut.oob
              | POut.fuelOut => POut.fuelOut
              | POut.ok right p =>
                  match right, expr with
                  | Except.ok r, Except.ok e =>
                      Parser.addition_loop fuel
                        (Except.ok (Expr.Binary e operator r)) p
                  | _, _ => POut.ok (Except.error "expecting addition") p

/-- `Parser::multiplication`. -/
def Parser.multiplication : Nat → Parser → POut
  | 0, _ => POut.fuelOut
  | fuel + 1, p =>
      match Parser.unary fuel p with
      | POut.oob => POut.oob
      | POut.fuelOut => POut.fuelOut
      | POut.ok expr p => Parser.multiplication_loop fuel expr p

/-- The `while self.match_token(...)` loop of `Parser::multiplication`. -/
def Parser.multiplication_loop : Nat → Except String Expr → Parser → POut
  | 0, _, _ => POut.fuelOut
  | fuel + 1, expr, p =>
      match p.match_token [TokenType.Star, TokenType.Slash] with
      | none => POut.oob
      | some (false, p) => POut.ok expr p
      | some (true, p) =>
          match p.previous with
          | none => POut.oob
          | some operator =>
              match Parser.unary fuel p with
              | POut.oob => POut.oob
              | POut.fuelOut => POut.fuelOut
              | POut.ok right p =>
                  match right, expr with
                  | Except.ok r, Except.ok e =>
                      Parser.multiplication_loop fuel
                        (Except.ok (Expr.Binary e operator r)) p
                  | _, _ => POut.ok (Except.error "expecting multiplication") p

/-- `Parser::unary`. -/
def Parser.unary : Nat → Parser → POut
  | 0, _ => POut.fuelOut
  | fuel + 1, p =>
      match p.match_token [TokenType.Bang, TokenType.Minus] with
      | none => POut.oob
      | some (true, p) =>
          match p.previous with
          | none => POut.oob
          | some operator =>
              match Parser.unary fuel p with
              | POut.oob => POut.oob
              | POut.fuelOut => POut.fuelOut
              | POut.ok right p =>
                  match right with
                  | Except.ok r => POut.ok (Except.ok (Expr.Unary operator r)) p
                  | Except.error _ => POut.ok (Except.error "expecting unary") p
      | some (false, p) =>
          match Parser.primary fuel p with
          | POut.oob => POut.oob
          | POut.fuelOut => POut.fuelOut
          | POut.ok pr p =>
              match pr with
              | Except.ok e => POut.ok (Except.ok e) p
              | Except.error _ => POut.ok (Except.error "expecting primary") p

/-- `Parser::primary`. -/
def Parser.primary : Nat → Parser → POut
  | 0, _ => POut.fuelOut
  | fuel + 1, p =>
      match p.match_token [TokenType.False] with
      | none => POut.oob
      | some (true, p) =>
          match p.previous with
          | none => POut.oob
          | some t => POut.ok (Except.ok (Expr.Literal t)) p
      | some (false, p) =>
      match p.match_token [TokenType.True] with
      | none => POut.oob
      | some (true, p) =>
          match p.previous with
          | none => POut.oob
          | some t => POut.ok (Except.ok (Expr.Literal t)) p
      | some (false, p) =>
      match p.match_token [TokenType.Nil] with
      | none => POut.oob
      | some (true, p) =>
          match p.previous with
          | none => POut.oob
          | some t => POut.ok (Except.ok (Expr.Literal t)) p
      | some (false, p) =>
      match p.peek with
      | none => POut.oob
      | some t =>
      if t.token_type.is_number then
        match p.advance with
        | none => POut.oob
        | some (_, p) =>
            match p.previous with
            | none => POut.oob
            | some t => POut.ok (Except.ok (Expr.Literal t)) p
      else if t.token_type.is_string then
        match p.advance with
        | none => POut.oob
        | some (_, p) =>
            match p.previous with
            | none => POut.oob
            | some t => POut.ok (Except.ok (Expr.Literal t)) p
      else
        match p.match_token [TokenType.LeftParen] with
        | none => POut.oob
        | some (true, p) =>
            match Parser.expression fuel p with
            | POut.oob => POut.oob
            | POut.fuelOut => POut.fuelOut
            | POut.ok expr p =>
                match p.consume TokenType.RightParen "Expect ')' after expression" with
                | none => POut.oob
                | some (consumed, p) =>
                    match consumed with
                    | Except.error _ =>
                        POut.ok (Except.error "Expect ')' after expression") p
                    | Except.ok _ =>
                        match expr with
                        | Except.ok e => POut.ok (Except.ok (Expr.Grouping e)) p
                        | Except.error _ =>
                            POut.ok (Except.error "expecting grouping") p
        | some (false, p) => POut.ok (Except.error "expecting expression") p

end

/-- The fuel `parse` supplies; `parser_fuel_spec` proves it sufficient for any
`EOF`-terminated token sequence. -/
def Parser.parse_fuel (p : Parser) : Nat := 7 * p.tokens.length + 7

/-- `Parser::parse`. -/
def Parser.parse (p : Parser) : POut :=
  Parser.expression p.parse_fuel p

/-- The `Result` value returned by `Parser::parse`, when no index panic or
fuel exhaustion occurs. -/
def parse_result (tokens : List Token) : Option (Except String Expr) :=
  match (Parser.new tokens).parse with
  | POut.ok r _ => some r
  | _ => none

/-- Number of newline characters strictly before position `i` of `source`
(the measure used by the line-tracking claims). -/
def newlines_before (s : List Char) (i : Nat) : Nat :=
  (s.take i).countP (fun c => decide (c = '\n'))

/-- A well-formed non-`EOF` token produced by scanning `source`: its lexeme is
a non-empty contiguous slice `source[a..b]` and its recorded line is one plus
the number of newlines before the slice's end. -/
def TokenFrom (source : List Char) (t : Token) : Prop :=
  t.token_type ≠ TokenType.EOF ∧
  ∃ a b, a < b ∧ b ≤ source.length ∧ t.lexeme = source_slice source a b ∧
    t.line = 1 + newlines_before source b

/-- How one scanner action transforms the state: `source` and `start` are
untouched, the cursor moves forward and stays in bounds, `line` advances by
exactly the newlines the cursor passed, and at most one non-`EOF` token is
appended, whose lexeme is `source[start..current']` and whose line is the
final `line`. -/
def ScanStep (st st' : Scanner) : Prop :=
  st'.source = st.source ∧ st'.start = st.start ∧
  st.current ≤ st'.current ∧
  (st.current ≤ st.source.length → st'.current ≤ st.source.length) ∧
  st'.line + newlines_before st.source st.current =
    st.line + newlines_before st.source st'.current ∧
  (st'.tokens = st.tokens ∨
    ∃ tt, tt ≠ TokenType.EOF ∧
      st'.tokens = st.tokens ++
        [⟨tt, source_slice st.source st.start st'.current, st'.line⟩])

/-- A `ScanStep` that appends no token (cursor movement only). -/
def ScanStep0 (st st' : Scanner) : Prop :=
  ScanStep st st' ∧ st'.tokens = st.tokens

/-- Position `e` of `ts` holds an `EOF` token. -/
def eof_at (ts : List Token) (e : Nat) : Prop :=
  (ts[e]?).map Token.token_type = some TokenType.EOF

/-- A grammar-level call from state `p` returned normally (no index panic, no
fuel exhaustion), leaving the tokens untouched and the cursor between its old
position and the `EOF` position `e`. -/
def Keeps (e : Nat) (p : Parser) (out : POut) : Prop :=
  ∃ r q, out = POut.ok r q ∧ q.tokens = p.tokens ∧
    p.current ≤ q.current ∧ q.current ≤ e

theorem source_slice_length {s : List Char} {a b : Nat} (hb : b ≤ s.length) :
    (source_slice s a b).length = b - a := by
  simp only [source_slice, List.length_drop, List.length_take]
  omega

theorem source_slice_ne_nil {s : List Char} {a b : Nat} (hab : a < b)
    (hb : b ≤ s.length) : source_slice s a b ≠ [] := by
  intro h
  have := source_slice_length (a := a) hb
  rw [h] at this
  simp at this
  omega

theorem newlines_before_succ {s : List Char} {i : Nat} {c : Char}
    (hc : s[i]? = some c) :
    newlines_before s (i + 1) =
      newlines_before s i + (if c = '\n' then 1 else 0) := by
  have hi : i < s.length := by
    by_contra h
    rw [List.getElem?_eq_none (by omega)] at hc
    exact Option.noConfusion hc
  simp only [newlines_before, List.take_succ, hc, Option.toList_some,
    List.countP_append, List.countP_cons, List.countP_nil]
  by_cases h : c = '\n' <;> simp [h]

theorem is_digit_ne_newline {c : Char} (h : is_digit c = true) : c ≠ '\n' := by
  intro hc; subst hc; simp [is_digit] at h

theorem is_alpha_numeric_ne_newline {c : Char} (h : is_alpha_numeric c = true) :
    c ≠ '\n' := by
  intro hc; subst hc; simp [is_alpha_numeric, is_alpha, is_digit] at h

theorem is_at_end_false_iff {st : Scanner} :
    st.is_at_end = false ↔ st.current < st.source.length := by
  simp [Scanner.is_at_end]

theorem peek_eq_of_lt {st : Scanner} {c : Char}
    (hc : st.source[st.current]? = some c) : st.peek = c := by
  have h : st.current < st.source.length := by
    by_contra hh
    rw [List.getElem?_eq_none (by omega)] at hc
    exact Option.noConfusion hc
  simp [Scanner.peek, Scanner.is_at_end, Nat.not_le.mpr h, hc]

theorem peek_at_end {st : Scanner} (h : st.source.length ≤ st.current) :
    st.peek = '\x00' := by
  simp [Scanner.peek, Scanner.is_at_end, h]

theorem getElem?_source_exists {st : Scanner} (h : st.current < st.source.length) :
    ∃ c, st.source[st.current]? = some c :=
  ⟨st.source[st.current], List.getElem?_eq_getElem h⟩

theorem match_char_spec (st : Scanner) (expected : Char) :
    st.match_char expected = (false, st) ∨
    (st.match_char expected = (true, { st with current := st.current + 1 }) ∧
      st.current < st.source.length ∧ st.source[st.current]? = some expected) := by
  unfold Scanner.match_char
  by_cases h1 : st.is_at_end
  · left; simp [h1]
  · have hlt : st.current < st.source.length := by
      rw [Bool.not_eq_true] at h1; exact is_at_end_false_iff.mp h1
    obtain ⟨c, hc⟩ := getElem?_source_exists hlt
    by_cases h2 : c = expected
    · right
      subst h2
      refine ⟨?_, hlt, hc⟩
      simp [h1, hc]
    · left
      simp [h1, hc, h2]

theorem ScanStep0.refl (st : Scanner) : ScanStep0 st st := by
  refine ⟨⟨rfl, rfl, le_refl _, fun h => h, rfl, Or.inl rfl⟩, rfl⟩

theorem ScanStep0.trans {a b c : Scanner} (h1 : ScanStep0 a b)
    (h2 : ScanStep0 b c) : ScanStep0 a c := by
  obtain ⟨⟨hs1, hst1, hc1, hb1, hl1, _⟩, ht1⟩ := h1
  obtain ⟨⟨hs2, hst2, hc2, hb2, hl2, _⟩, ht2⟩ := h2
  rw [hs1] at hs2 hl2
  rw [hs1] at hb2
  refine ⟨⟨hs2, hst2.trans hst1, hc1.trans hc2, ?_, by omega, Or.inl (ht2.trans ht1)⟩,
    ht2.trans ht1⟩
  intro h
  exact hb2 (hb1 h)

/-- A token-preserving step followed by `add_token` of a non-`EOF` kind is a
`ScanStep`. -/
theorem ScanStep.add_after {a b : Scanner} {tt : TokenType} (h : ScanStep0 a b)
    (htt : tt ≠ TokenType.EOF) : ScanStep a (b.add_token tt) := by
  obtain ⟨⟨hs, hst, hc, hb, hl, _⟩, ht⟩ := h
  refine ⟨hs, hst, hc, hb, hl, Or.inr ⟨tt, htt, ?_⟩⟩
  simp only [Scanner.add_token, ht, hs, hst]

/-- `add_token` alone (from an unchanged state). -/
theorem ScanStep.add_token {st : Scanner} {tt : TokenType}
    (htt : tt ≠ TokenType.EOF) : ScanStep st (st.add_token tt) :=
  ScanStep.add_after (ScanStep0.refl st) htt

theorem ScanStep0.error (st : Scanner) (msg : String) :
    ScanStep0 st (st.error msg) := by
  refine ⟨⟨rfl, rfl, le_refl _, fun h => h, rfl, Or.inl rfl⟩, rfl⟩

/-- Consuming one non-newline character. -/
theorem ScanStep0.bump {st : Scanner} {c : Char}
    (hc : st.source[st.current]? = some c) (hnl : c ≠ '\n') :
    ScanStep0 st { st with current := st.current + 1 } := by
  have h : st.current < st.source.length := by
    by_contra hh
    rw [List.getElem?_eq_none (by omega)] at hc
    exact Option.noConfusion hc
  refine ⟨⟨rfl, rfl, Nat.le_succ _, fun _ => h, ?_, Or.inl rfl⟩, rfl⟩
  simp [newlines_before_succ hc, hnl]

/-- Consuming one newline character while incrementing `line`. -/
theorem ScanStep0.bump_newline {st : Scanner}
    (hc : st.source[st.current]? = some '\n') :
    ScanStep0 st { st with line := st.line + 1, current := st.current + 1 } := by
  have h : st.current < st.source.length := by
    by_contra hh
    rw [List.getElem?_eq_none (by omega)] at hc
    exact Option.noConfusion hc
  refine ⟨⟨rfl, rfl, Nat.le_succ _, fun _ => h, ?_, Or.inl rfl⟩, rfl⟩
  simp [newlines_before_succ hc]
  omega

theorem digit_loop_spec (fuel : Nat) : ∀ st : Scanner,
    ScanStep0 st (Scanner.digit_loop fuel st) ∧
    (Scanner.digit_loop fuel st).errors = st.errors ∧
    (Scanner.digit_loop fuel st).line = st.line := by
  induction fuel with
  | zero => intro st; exact ⟨ScanStep0.refl st, rfl, rfl⟩
  | succ fuel ih =>
      intro st
      rw [Scanner.digit_loop]
      by_cases hg : is_digit st.peek = true
      · have hlt : st.current < st.source.length := by
          by_contra hh
          rw [peek_at_end (by omega)] at hg
          simp [is_digit] at hg
        obtain ⟨c, hc⟩ := getElem?_source_exists hlt
        have hpc : st.peek = c := peek_eq_of_lt hc
        have hgc : is_digit c = true := by rw [← hpc]; exact hg
        have hstep := ScanStep0.bump hc (is_digit_ne_newline hgc)
        obtain ⟨ihs, ihe, ihl⟩ := ih { st with current := st.current + 1 }
        rw [if_pos hg]
        exact ⟨hstep.trans ihs, ihe, ihl⟩
      · rw [if_neg hg]
        exact ⟨ScanStep0.refl st, rfl, rfl⟩

theorem ident_loop_spec (fuel : Nat) : ∀ st : Scanner,
    ScanStep0 st (Scanner.ident_loop fuel st) ∧
    (Scanner.ident_loop fuel st).errors = st.errors ∧
    (Scanner.ident_loop fuel st).line = st.line := by
  induction fuel with
  | zero => intro st; exact ⟨ScanStep0.refl st, rfl, rfl⟩
  | succ fuel ih =>
      intro st
      rw [Scanner.ident_loop]
      by_cases hg : is_alpha_numeric st.peek = true
      · have hlt : st.current < st.source.length := by
          by_contra hh
          rw [peek_at_end (by omega)] at hg
          simp [is_alpha_numeric, is_alpha, is_digit] at hg
        obtain ⟨c, hc⟩ := getElem?_source_exists hlt
        have hpc : st.peek = c := peek_eq_of_lt hc
        have hgc : is_alpha_numeric c = true := by rw [← hpc]; exact hg
        have hstep := ScanStep0.bump hc (is_alpha_numeric_ne_newline hgc)
        obtain ⟨ihs, ihe, ihl⟩ := ih { st with current := st.current + 1 }
        rw [if_pos hg]
        exact ⟨hstep.trans ihs, ihe, ihl⟩
      · rw [if_neg hg]
        exact ⟨ScanStep0.refl st, rfl, rfl⟩

theorem comment_loop_spec (fuel : Nat) : ∀ st : Scanner,
    ScanStep0 st (Scanner.comment_loop fuel st) ∧
    (Scanner.comment_loop fuel st).errors = st.errors ∧
    (Scanner.comment_loop fuel st).line = st.line := by
  induction fuel with
  | zero => intro st; exact ⟨ScanStep0.refl st, rfl, rfl⟩
  | succ fuel ih =>
      intro st
      rw [Scanner.comment_loop]
      by_cases hg : ((st.peek != '\n') && !st.is_at_end) = true
      · have hg' := hg
        simp only [Bool.and_eq_true, bne_iff_ne, Bool.not_eq_true'] at hg'
        have hlt : st.current < st.source.length := is_at_end_false_iff.mp hg'.2
        obtain ⟨c, hc⟩ := getElem?_source_exists hlt
        have hpc : st.peek = c := peek_eq_of_lt hc
        have hgc : c ≠ '\n' := by rw [← hpc]; exact hg'.1
        have hstep := ScanStep0.bump hc hgc
        obtain ⟨ihs, ihe, ihl⟩ := ih { st with current := st.current + 1 }
        rw [if_pos hg]
        exact ⟨hstep.trans ihs, ihe, ihl⟩
      · rw [if_neg hg]
        exact ⟨ScanStep0.refl st, rfl, rfl⟩

theorem string_loop_spec (fuel : Nat) : ∀ st : Scanner,
    ScanStep0 st (Scanner.string_loop fuel st) ∧
    (Scanner.string_loop fuel st).errors = st.errors := by
  induction fuel with
  | zero => intro st; exact ⟨ScanStep0.refl st, rfl⟩
  | succ fuel ih =>
      intro st
      rw [Scanner.string_loop]
      by_cases hg : ((st.peek != '"') && !st.is_at_end) = true
      · have hg' := hg
        simp only [Bool.and_eq_true, bne_iff_ne, Bool.not_eq_true'] at hg'
        have hlt : st.current < st.source.length := is_at_end_false_iff.mp hg'.2
        obtain ⟨c, hc⟩ := getElem?_source_exists hlt
        have hpc : st.peek = c := peek_eq_of_lt hc
        rw [if_pos hg]
        by_cases hnl : st.peek = '\n'
        · have hcn : c = '\n' := by rw [← hpc]; exact hnl
          subst hcn
          have hstep := ScanStep0.bump_newline hc
          obtain ⟨ihs, ihe⟩ := ih { st with line := st.line + 1, current := st.current + 1 }
          rw [if_pos hnl]
          exact ⟨hstep.trans ihs, ihe⟩
        · have hcne : c ≠ '\n' := by rw [← hpc]; exact hnl
          have hstep := ScanStep0.bump hc hcne
          obtain ⟨ihs, ihe⟩ := ih { st with current := st.current + 1 }
          rw [if_neg hnl]
          exact ⟨hstep.trans ihs, ihe⟩
      · rw [if_neg hg]
        exact ⟨ScanStep0.refl st, rfl⟩

/-- With fuel at least `source.length + 1 - current` (always true for the
`source.length + 1` supplied by `Scanner.string`), the string loop only stops
at a closing quote or at the end of input — exactly the `while` condition. -/
theorem string_loop_exhaust (fuel : Nat) : ∀ st : Scanner,
    st.source.length + 1 - st.current ≤ fuel →
    (Scanner.string_loop fuel st).peek = '"' ∨
    (Scanner.string_loop fuel st).is_at_end = true := by
  induction fuel with
  | zero =>
      intro st hb
      rw [Scanner.string_loop]
      right
      simp only [Scanner.is_at_end, decide_eq_true_eq]
      omega
  | succ fuel ih =>
      intro st hb
      rw [Scanner.string_loop]
      by_cases hg : ((st.peek != '"') && !st.is_at_end) = true
      · have hg' := hg
        simp only [Bool.and_eq_true, bne_iff_ne, Bool.not_eq_true'] at hg'
        have hlt : st.current < st.source.length := is_at_end_false_iff.mp hg'.2
        rw [if_pos hg]
        by_cases hnl : st.peek = '\n'
        · rw [if_pos hnl]
          exact ih _ (by simp; omega)
        · rw [if_neg hnl]
          exact ih _ (by simp; omega)
      · rw [if_neg hg]
        rw [Bool.and_eq_true, not_and_or] at hg
        rcases hg with h | h
        · left
          simpa using h
        · right
          simpa using h

theorem reserved_no_eof {s : List Char} {t : TokenType}
    (h : reserved_lookup s = some t) : t ≠ TokenType.EOF := by
  intro he
  subst he
  unfold reserved_lookup at h
  rw [Option.map_eq_some'] at h
  obtain ⟨p, hp, hsnd⟩ := h
  have hmem := List.mem_of_find?_eq_some hp
  have hall : ∀ p ∈ reserved, p.2 ≠ TokenType.EOF := by decide
  exact hall p hmem hsnd

theorem string_spec (st : Scanner) : ScanStep st (Scanner.string st) := by
  unfold Scanner.string
  obtain ⟨hl0, _⟩ := string_loop_spec (st.source.length + 1) st
  have hex := string_loop_exhaust (st.source.length + 1) st (by omega)
  by_cases hend : (Scanner.string_loop (st.source.length + 1) st).is_at_end = true
  · rw [if_pos hend]
    exact (hl0.trans (ScanStep0.error _ _)).1
  · rw [if_neg hend]
    have hq : (Scanner.string_loop (st.source.length + 1) st).peek = '"' := by
      rcases hex with h | h
      · exact h
      · exact absurd h hend
    have hlt : (Scanner.string_loop (st.source.length + 1) st).current <
        (Scanner.string_loop (st.source.length + 1) st).source.length := by
      rw [Bool.not_eq_true] at hend
      exact is_at_end_false_iff.mp hend
    obtain ⟨c, hc⟩ := getElem?_source_exists hlt
    have hcq : c = '"' := by
      rw [← peek_eq_of_lt hc]
      exact hq
    subst hcq
    have hbump := ScanStep0.bump hc (by decide)
    exact ScanStep.add_after (hl0.trans hbump) (fun h => TokenType.noConfusion h)

theorem number_spec (st : Scanner) : ScanStep st (Scanner.number st) := by
  unfold Scanner.number
  simp only []
  obtain ⟨h1, _, _⟩ := digit_loop_spec (st.source.length + 1) st
  by_cases hdot : ((Scanner.digit_loop (st.source.length + 1) st).peek = '.') ∧
      is_digit (Scanner.digit_loop (st.source.length + 1) st).peek_next = true
  · rw [if_pos hdot]
    have hlt : (Scanner.digit_loop (st.source.length + 1) st).current <
        (Scanner.digit_loop (st.source.length + 1) st).source.length := by
      by_contra hh
      rw [peek_at_end (by omega)] at hdot
      exact absurd hdot.1 (by decide)
    obtain ⟨c, hc⟩ := getElem?_source_exists hlt
    have hcq : c = '.' := by
      rw [← peek_eq_of_lt hc]
      exact hdot.1
    subst hcq
    have hbump := ScanStep0.bump hc (by decide)
    obtain ⟨h2, _, _⟩ := digit_loop_spec
      ((Scanner.digit_loop (st.source.length + 1) st).source.length + 1)
      { Scanner.digit_loop (st.source.length + 1) st with
          current := (Scanner.digit_loop (st.source.length + 1) st).current + 1 }
    have hall := (h1.trans hbump).trans h2
    cases hpd : parse_decimal (source_slice _ _ _) with
    | some d =>
        simp only [hpd]
        exact ScanStep.add_after hall (fun h => TokenType.noConfusion h)
    | none =>
        simp only [hpd]
        exact ScanStep.add_after (hall.trans (ScanStep0.error _ _))
          (fun h => TokenType.noConfusion h)
  · rw [if_neg hdot]
    cases hpd : parse_decimal (source_slice _ _ _) with
    | some d =>
        simp only [hpd]
        exact ScanStep.add_after h1 (fun h => TokenType.noConfusion h)
    | none =>
        simp only [hpd]
        exact ScanStep.add_after (h1.trans (ScanStep0.error _ _))
          (fun h => TokenType.noConfusion h)

theorem identifier_spec (st : Scanner) : ScanStep st (Scanner.identifier st) := by
  unfold Scanner.identifier
  simp only []
  obtain ⟨h1, _, _⟩ := ident_loop_spec (st.source.length + 1) st
  cases hrl : reserved_lookup (source_slice _ _ _) with
  | some t =>
      simp only [hrl]
      exact ScanStep.add_after h1 (reserved_no_eof hrl)
  | none =>
      simp only [hrl]
      exact ScanStep.add_after h1 (fun h => TokenType.noConfusion h)

/-- A token-preserving step followed by any scanner step. -/
theorem ScanStep.after0 {a b c : Scanner} (h1 : ScanStep0 a b) (h2 : ScanStep b c) :
    ScanStep a c := by
  obtain ⟨⟨hs1, hst1, hc1, hb1, hl1, _⟩, ht1⟩ := h1
  obtain ⟨hs2, hst2, hc2, hb2, hl2, htk2⟩ := h2
  rw [hs1] at hs2 hl2 hb2
  refine ⟨hs2, hst2.trans hst1, hc1.trans hc2, fun h => hb2 (hb1 h), by omega, ?_⟩
  rcases htk2 with h | ⟨tt, htt, h⟩
  · exact Or.inl (h.trans ht1)
  · right
    refine ⟨tt, htt, ?_⟩
    rw [h, ht1, hs1, hst1]

set_option maxHeartbeats 1000000 in
/-- Each `scan_token` call from an in-bounds cursor is a well-formed scanner
step and consumes at least one character. -/
theorem scan_token_spec (st : Scanner) (h : st.current < st.source.length) :
    ScanStep st (Scanner.scan_token st) ∧
    st.current < (Scanner.scan_token st).current := by
  obtain ⟨c, hc⟩ := getElem?_source_exists h
  rw [Scanner.scan_token, Scanner.advance, hc]
  simp only [Option.getD_some]
  split
  all_goals try
    exact ⟨ScanStep.add_after (ScanStep0.bump hc (by decide))
      (fun hh => TokenType.noConfusion hh), Nat.lt_succ_self _⟩
  all_goals try {
    rcases match_char_spec { st with current := st.current + 1 } '='
      with hm | ⟨hm, hlt2, hc2⟩
    · simp only [hm, Bool.false_eq_true, if_false]
      exact ⟨ScanStep.add_after (ScanStep0.bump hc (by decide))
        (fun hh => TokenType.noConfusion hh), Nat.lt_succ_self _⟩
    · simp only [hm, eq_self_iff_true, if_true]
      exact ⟨ScanStep.add_after
        ((ScanStep0.bump hc (by decide)).trans (ScanStep0.bump hc2 (by decide)))
        (fun hh => TokenType.noConfusion hh),
        Nat.lt_of_lt_of_le (Nat.lt_succ_self _) (Nat.le_succ _)⟩ }
  -- the `/` arm: comment or Slash
  · rcases match_char_spec { st with current := st.current + 1 } '/'
      with hm | ⟨hm, hlt2, hc2⟩
    · simp only [hm, Bool.false_eq_true, if_false]
      exact ⟨ScanStep.add_after (ScanStep0.bump hc (by decide))
        (fun hh => TokenType.noConfusion hh), Nat.lt_succ_self _⟩
    · simp only [hm, eq_self_iff_true, if_true]
      have hcl := comment_loop_spec
        (({ st with current := st.current + 1 } : Scanner).source.length + 1)
        { st with current := st.current + 2 }
      refine ⟨(((ScanStep0.bump hc (by decide)).trans
        (ScanStep0.bump hc2 (by decide))).trans hcl.1).1, ?_⟩
      exact Nat.lt_of_lt_of_le
        (Nat.lt_of_lt_of_le (Nat.lt_succ_self _) (Nat.le_succ _)) hcl.1.1.2.2.1
  -- whitespace: space, tab, carriage return
  all_goals try
    exact ⟨(ScanStep0.bump hc (by decide)).1, Nat.lt_succ_self _⟩
  -- newline
  · exact ⟨(ScanStep0.bump_newline hc).1, Nat.lt_succ_self _⟩
  -- string literal
  · have hsp := string_spec { st with current := st.current + 1 }
    exact ⟨ScanStep.after0 (ScanStep0.bump hc (by decide)) hsp,
      Nat.lt_of_lt_of_le (Nat.lt_succ_self _) hsp.2.2.1⟩
  -- digits, identifiers, unknown characters
  · rename_i hnl hq
    by_cases hd : is_digit c = true
    · rw [if_pos hd]
      have hsp := number_spec { st with current := st.current + 1 }
      exact ⟨ScanStep.after0 (ScanStep0.bump hc hnl) hsp,
        Nat.lt_of_lt_of_le (Nat.lt_succ_self _) hsp.2.2.1⟩
    · rw [if_neg hd]
      by_cases ha : is_alpha c = true
      · rw [if_pos ha]
        have hsp := identifier_spec { st with current := st.current + 1 }
        exact ⟨ScanStep.after0 (ScanStep0.bump hc hnl) hsp,
          Nat.lt_of_lt_of_le (Nat.lt_succ_self _) hsp.2.2.1⟩
      · rw [if_neg ha]
        exact ⟨((ScanStep0.bump hc hnl).trans (ScanStep0.error _ _)).1,
          Nat.lt_succ_self _⟩

/-- The `scan_tokens` loop: with sufficient fuel (as supplied), it drives the
cursor to the end of input, and every token it appends is a well-formed
non-`EOF` token of the source. -/
theorem scan_loop_spec (fuel : Nat) : ∀ st : Scanner,
    st.current ≤ st.source.length →
    st.source.length - st.current < fuel →
    st.start ≤ st.current →
    st.line = 1 + newlines_before st.source st.current →
    (Scanner.scan_loop fuel st).source = st.source ∧
    (Scanner.scan_loop fuel st).current = st.source.length ∧
    (Scanner.scan_loop fuel st).start ≤ st.source.length ∧
    ∃ rest, (Scanner.scan_loop fuel st).tokens = st.tokens ++ rest ∧
      ∀ t ∈ rest, TokenFrom st.source t := by
  induction fuel with
  | zero => intro st _ hb; omega
  | succ fuel ih =>
      intro st hcur hb hstart hline
      rw [Scanner.scan_loop]
      by_cases hend : st.is_at_end = true
      · rw [if_neg (by simp [hend])]
        have : st.source.length ≤ st.current := by
          simpa [Scanner.is_at_end] using hend
        exact ⟨rfl, by omega, by omega, [], by simp, by simp⟩
      · rw [if_pos (by simp [Bool.not_eq_true] at hend ⊢; exact hend)]
        rw [Bool.not_eq_true] at hend
        have hlt : st.current < st.source.length := is_at_end_false_iff.mp hend
        obtain ⟨hstep, hstrict⟩ :=
          scan_token_spec { st with start := st.current } hlt
        obtain ⟨hs1, hst1, hmono, hbound, hline1, htok1⟩ := hstep
        have hcur1 : (Scanner.scan_token { st with start := st.current }).current ≤
            st.source.length := hbound hcur
        have hstrict' : st.current <
            (Scanner.scan_token { st with start := st.current }).current := hstrict
        have hrel : (Scanner.scan_token { st with start := st.current }).line +
            newlines_before st.source st.current =
            st.line + newlines_before st.source
              (Scanner.scan_token { st with start := st.current }).current := hline1
        have hmono' : st.current ≤
            (Scanner.scan_token { st with start := st.current }).current := hmono
        have hst1' : (Scanner.scan_token { st with start := st.current }).start =
            st.current := hst1
        have hline1' : (Scanner.scan_token { st with start := st.current }).line =
            1 + newlines_before st.source
              (Scanner.scan_token { st with start := st.current }).current := by
          omega
        have hbound2 : st.source.length -
            (Scanner.scan_token { st with start := st.current }).current < fuel := by
          omega
        obtain ⟨ihsrc, ihcur, ihstart, rest1, ihtok, ihfrom⟩ :=
          ih (Scanner.scan_token { st with start := st.current })
            (by rw [hs1]; exact hcur1)
            (by rw [hs1]; exact hbound2)
            (by rw [hst1']; exact hmono')
            (by rw [hs1]; exact hline1')
        rw [hs1] at ihsrc ihcur ihstart
        refine ⟨ihsrc, ihcur, ihstart, ?_⟩
        rcases htok1 with hsame | ⟨tt, htt, happ⟩
        · refine ⟨rest1, ?_, ?_⟩
          · rw [ihtok, hsame]
          · intro t ht
            have := ihfrom t ht
            rwa [hs1] at this
        · refine ⟨⟨tt, source_slice st.source st.current
              (Scanner.scan_token { st with start := st.current }).current,
              (Scanner.scan_token { st with start := st.current }).line⟩ :: rest1,
            ?_, ?_⟩
          · rw [ihtok, happ]
            simp
          · intro t ht
            rcases List.mem_cons.mp ht with heq | hmem
            · subst heq
              refine ⟨htt, st.current,
                (Scanner.scan_token { st with start := st.current }).current,
                hstrict, hcur1, rfl, ?_⟩
              exact hline1'
            · have := ihfrom t hmem
              rwa [hs1] at this

/-- Overall shape of a full scan: the cursor ends at the end of the source,
the token list is a run of well-formed non-`EOF` tokens followed by a single
`EOF` token whose lexeme is the tail slice `source[start..len]` for the final
value of `start`. -/
theorem scan_spec (source : List Char) :
    (scan source).source = source ∧
    (scan source).current = source.length ∧
    ∃ body a, a ≤ source.length ∧
      (scan source).tokens =
        body ++ [⟨TokenType.EOF, source_slice source a source.length,
          (scan source).line⟩] ∧
      ∀ t ∈ body, TokenFrom source t := by
  unfold scan Scanner.scan_tokens
  simp only [Scanner.new]
  obtain ⟨hsrc, hcur, hstart, rest, htok, hfrom⟩ :=
    scan_loop_spec (source.length + 1)
      { source := source, tokens := [], start := 0, current := 0, line := 1,
        errors := [] }
      (by simp) (by simp) (by simp) (by simp [newlines_before])
  simp only [List.nil_append] at htok
  refine ⟨by simpa [Scanner.add_token] using hsrc,
    by simpa [Scanner.add_token] using hcur,
    rest,
    (Scanner.scan_loop (source.length + 1)
      { source := source, tokens := [], start := 0, current := 0, line := 1,
        errors := [] }).start,
    by simpa using hstart, ?_, ?_⟩
  · simp only [Scanner.add_token, htok]
    simp [hsrc, hcur]
  · intro t ht
    simpa using hfrom t ht

theorem eof_at_lt {ts : List Token} {e : Nat} (h : eof_at ts e) : e < ts.length := by
  unfold eof_at at h
  rw [Option.map_eq_some'] at h
  obtain ⟨t, ht, _⟩ := h
  by_contra hh
  rw [List.getElem?_eq_none (by omega)] at ht
  exact Option.noConfusion ht

theorem eof_at_get {ts : List Token} {e : Nat} (h : eof_at ts e) :
    ∃ t, ts[e]? = some t ∧ t.token_type = TokenType.EOF := by
  unfold eof_at at h
  rw [Option.map_eq_some'] at h
  exact h

theorem peek_total {p : Parser} {e : Nat} (h : eof_at p.tokens e)
    (hc : p.current ≤ e) : ∃ t, p.peek = some t ∧ p.tokens[p.current]? = some t := by
  have hlt : p.current < p.tokens.length := lt_of_le_of_lt hc (eof_at_lt h)
  exact ⟨p.tokens[p.current], List.getElem?_eq_getElem hlt,
    List.getElem?_eq_getElem hlt⟩

theorem ne_eof_lt {p : Parser} {e : Nat} {t : Token} (h : eof_at p.tokens e)
    (hc : p.current ≤ e) (ht : p.tokens[p.current]? = some t)
    (hne : t.token_type ≠ TokenType.EOF) : p.current < e := by
  rcases Nat.lt_or_ge p.current e with hlt | hge
  · exact hlt
  · exfalso
    have he : p.current = e := by omega
    obtain ⟨te, hte, htee⟩ := eof_at_get h
    rw [← he] at hte
    rw [ht] at hte
    exact hne (Option.some.inj hte ▸ htee)

theorem is_at_end_eq {p : Parser} {t : Token}
    (ht : p.tokens[p.current]? = some t) :
    p.is_at_end = some (decide (t.token_type = TokenType.EOF)) := by
  unfold Parser.is_at_end Parser.peek
  rw [ht, Option.map_some']

theorem previous_total {p : Parser} {e : Nat} (h : eof_at p.tokens e)
    (h1 : 1 ≤ p.current) (h2 : p.current ≤ e + 1) :
    ∃ t, p.previous = some t ∧ p.tokens[p.current - 1]? = some t := by
  have hlt : p.current - 1 < p.tokens.length := by
    have := eof_at_lt h
    omega
  refine ⟨p.tokens[p.current - 1], ?_, List.getElem?_eq_getElem hlt⟩
  unfold Parser.previous
  rw [if_neg (by omega)]
  exact List.getElem?_eq_getElem hlt

theorem advance_total {p : Parser} {e : Nat} {t : Token} (h : eof_at p.tokens e)
    (hc : p.current ≤ e) (ht : p.tokens[p.current]? = some t)
    (hne : t.token_type ≠ TokenType.EOF) :
    p.advance = some (t, { p with current := p.current + 1 }) := by
  unfold Parser.advance
  rw [is_at_end_eq ht]
  simp only [decide_eq_true_eq]
  rw [if_neg hne]
  have hprev : ({ p with current := p.current + 1 } : Parser).previous = some t := by
    unfold Parser.previous
    simp only [Nat.add_sub_cancel]
    rw [if_neg (by omega)]
    exact ht
  rw [hprev, Option.map_some']

theorem match_token_total {p : Parser} {e : Nat} (h : eof_at p.tokens e)
    (hc : p.current ≤ e) : ∀ l : List TokenType,
    p.match_token l = some (false, p) ∨
    (∃ t, p.match_token l = some (true, { p with current := p.current + 1 }) ∧
      p.tokens[p.current]? = some t ∧ t.token_type ∈ l ∧
      t.token_type ≠ TokenType.EOF ∧ p.current < e) := by
  intro l
  induction l with
  | nil => left; rfl
  | cons token rest ih =>
      obtain ⟨t, hpeek, ht⟩ := peek_total h hc
      by_cases heof : t.token_type = TokenType.EOF
      · have hchk : p.check token = some false := by
          unfold Parser.check
          rw [is_at_end_eq ht, heof]
          simp
        rw [Parser.match_token, hchk]
        rcases ih with h1 | ⟨t', h1, h2, h3, h4, h5⟩
        · left; exact h1
        · right; exact ⟨t', h1, h2, List.mem_cons_of_mem _ h3, h4, h5⟩
      · have hend : p.is_at_end = some false := by
          rw [is_at_end_eq ht]
          simp [heof]
        by_cases heq : t.token_type = token
        · have hchk : p.check token = some true := by
            unfold Parser.check
            rw [hend, hpeek, Option.map_some']
            simp [heq]
          rw [Parser.match_token, hchk]
          right
          refine ⟨t, ?_, ht, by simp [heq], heof, ne_eof_lt h hc ht heof⟩
          rw [advance_total h hc ht heof, Option.map_some']
        · have hchk : p.check token = some false := by
            unfold Parser.check
            rw [hend, hpeek, Option.map_some']
            simp [heq]
          rw [Parser.match_token, hchk]
          rcases ih with h1 | ⟨t', h1, h2, h3, h4, h5⟩
          · left; exact h1
          · right; exact ⟨t', h1, h2, List.mem_cons_of_mem _ h3, h4, h5⟩

/-- When the current token's type is `EOF` or matches none of the candidates,
`match_token` consumes nothing. -/
theorem match_token_false {p : Parser} {t : Token} (hpeek : p.peek = some t) :
    ∀ l : List TokenType,
    (t.token_type = TokenType.EOF ∨ ∀ tt ∈ l, t.token_type ≠ tt) →
    p.match_token l = some (false, p) := by
  intro l hl
  have ht : p.tokens[p.current]? = some t := hpeek
  induction l with
  | nil => rfl
  | cons token rest ih =>
      rcases hl with heof | hne
      · have hchk : p.check token = some false := by
          unfold Parser.check
          rw [is_at_end_eq ht, heof]
          simp
        rw [Parser.match_token, hchk]
        exact ih (Or.inl heof)
      · have hchk : p.check token = some false := by
          unfold Parser.check
          rw [is_at_end_eq ht]
          by_cases heof : t.token_type = TokenType.EOF
          · rw [heof]; simp
          · simp only [decide_eq_false heof]
            rw [hpeek, Option.map_some']
            simp [hne token (List.mem_cons_self _ _)]
        rw [Parser.match_token, hchk]
        exact ih (Or.inr (fun tt htt => hne tt (List.mem_cons_of_mem _ htt)))

theorem consume_total {p : Parser} {e : Nat} (h : eof_at p.tokens e)
    (hc : p.current ≤ e) (tt : TokenType) (msg : String) :
    p.consume tt msg = some (Except.error msg, p) ∨
    (∃ t, p.consume tt msg = some (Except.ok t, { p with current := p.current + 1 }) ∧
      p.current < e) := by
  obtain ⟨t, hpeek, ht⟩ := peek_total h hc
  by_cases heof : t.token_type = TokenType.EOF
  · left
    have hchk : p.check tt = some false := by
      unfold Parser.check
      rw [is_at_end_eq ht, heof]
      simp
    unfold Parser.consume
    rw [hchk]
  · have hend : p.is_at_end = some false := by
      rw [is_at_end_eq ht]
      simp [heof]
    by_cases heq : t.token_type = tt
    · right
      have hchk : p.check tt = some true := by
        unfold Parser.check
        rw [hend, hpeek, Option.map_some']
        simp [heq]
      refine ⟨t, ?_, ne_eof_lt h hc ht heof⟩
      unfold Parser.consume
      rw [hchk, advance_total h hc ht heof, Option.map_some']
    · left
      have hchk : p.check tt = some false := by
        unfold Parser.check
        rw [hend, hpeek, Option.map_some']
        simp [heq]
      unfold Parser.consume
      rw [hchk]

theorem Keeps.self {e : Nat} {p : Parser} (r : Except String Expr)
    (hc : p.current ≤ e) : Keeps e p (POut.ok r p) :=
  ⟨r, p, rfl, rfl, le_refl _, hc⟩

theorem Keeps.widen {e : Nat} {p q : Parser} {out : POut}
    (hq : q.tokens = p.tokens) (hc : p.current ≤ q.current)
    (h : Keeps e q out) : Keeps e p out := by
  obtain ⟨r, q', h1, h2, h3, h4⟩ := h
  exact ⟨r, q', h1, h2.trans hq, hc.trans h3, h4⟩

theorem is_number_ne_eof {tt : TokenType} (h : tt.is_number = true) :
    tt ≠ TokenType.EOF := by
  cases tt <;> simp_all [TokenType.is_number]

theorem is_string_ne_eof {tt : TokenType} (h : tt.is_string = true) :
    tt ≠ TokenType.EOF := by
  cases tt <;> simp_all [TokenType.is_string]

theorem previous_bump {p : Parser} {t : Token}
    (ht : p.tokens[p.current]? = some t) :
    ({ p with current := p.current + 1 } : Parser).previous = some t := by
  unfold Parser.previous
  simp only [Nat.add_sub_cancel]
  rw [if_neg (by omega)]
  exact ht

set_option maxHeartbeats 4000000 in
/-- Fuel sufficiency and panic freedom for every grammar level: starting from
a cursor at or before an `EOF` token, each function returns normally
(`POut.ok`), keeps the token list intact, and moves the cursor monotonically
but never past the `EOF`.  The fuel bounds reflect the call structure: each
nested call costs one unit and every loop iteration first consumes a token. -/
theorem parser_fuel_spec (fuel : Nat) : ∀ (e : Nat) (p : Parser),
    eof_at p.tokens e → p.current ≤ e →
    ((7 * (e - p.current) + 7 ≤ fuel → Keeps e p (Parser.expression fuel p)) ∧
     (7 * (e - p.current) + 6 ≤ fuel → Keeps e p (Parser.equality fuel p)) ∧
     (∀ ex, 7 * (e - p.current) + 1 ≤ fuel →
        Keeps e p (Parser.equality_loop fuel ex p)) ∧
     (7 * (e - p.current) + 5 ≤ fuel → Keeps e p (Parser.comparison fuel p)) ∧
     (∀ ex, 7 * (e - p.current) + 1 ≤ fuel →
        Keeps e p (Parser.comparison_loop fuel ex p)) ∧
     (7 * (e - p.current) + 4 ≤ fuel → Keeps e p (Parser.addition fuel p)) ∧
     (∀ ex, 7 * (e - p.current) + 1 ≤ fuel →
        Keeps e p (Parser.addition_loop fuel ex p)) ∧
     (7 * (e - p.current) + 3 ≤ fuel → Keeps e p (Parser.multiplication fuel p)) ∧
     (∀ ex, 7 * (e - p.current) + 1 ≤ fuel →
        Keeps e p (Parser.multiplication_loop fuel ex p)) ∧
     (7 * (e - p.current) + 2 ≤ fuel → Keeps e p (Parser.unary fuel p)) ∧
     (7 * (e - p.current) + 1 ≤ fuel → Keeps e p (Parser.primary fuel p))) := by
  induction fuel with
  | zero =>
      intro e p h hc
      refine ⟨?_, ?_, ?_, ?_, ?_, ?_, ?_, ?_, ?_, ?_, ?_⟩ <;>
        first
          | (intro hb; omega)
          | (intro ex hb; omega)
  | succ fuel ih =>
      intro e p h hc
      refine ⟨?_, ?_, ?_, ?_, ?_, ?_, ?_, ?_, ?_, ?_, ?_⟩
      -- expression
      · intro hb
        rw [Parser.expression]
        exact (ih e p h hc).2.1 (by omega)
      -- equality
      · intro hb
        rw [Parser.equality]
        obtain ⟨r, q, hq, hqt, hq1, hq2⟩ := (ih e p h hc).2.2.2.1 (by omega)
        simp only [hq]
        have hqe : eof_at q.tokens e := by rw [hqt]; exact h
        exact Keeps.widen hqt hq1 ((ih e q hqe hq2).2.2.1 r (by omega))
      -- equality_loop
      · intro ex hb
        rw [Parser.equality_loop]
        rcases match_token_total h hc [TokenType.BangEqual, TokenType.EqualEqual]
          with hm | ⟨t, hm, ht, _, hne, hlt⟩
        · simp only [hm]
          exact Keeps.self ex hc
        · simp only [hm]
          obtain ⟨op, hop, _⟩ := previous_total
            (p := { p with current := p.current + 1 }) h
            (Nat.succ_le_succ (Nat.zero_le _)) (Nat.succ_le_succ hc)
          simp only [hop]
          have hb2 : 7 * (e - (p.current + 1)) + 5 ≤ fuel := by omega
          obtain ⟨r, q, hq, hqt, hq1, hq2⟩ :=
            (ih e { p with current := p.current + 1 } h hlt).2.2.2.1 hb2
          simp only [hq]
          have hqt' : q.tokens = p.tokens := hqt
          have hq1' : p.current + 1 ≤ q.current := hq1
          have hqe : eof_at q.tokens e := by rw [hqt']; exact h
          rcases r with msg | r'
          · rcases ex with msg2 | ex'
            · exact ⟨_, q, rfl, hqt', by omega, hq2⟩
            · exact ⟨_, q, rfl, hqt', by omega, hq2⟩
          · rcases ex with msg2 | ex'
            · exact ⟨_, q, rfl, hqt', by omega, hq2⟩
            · exact Keeps.widen hqt' (by omega)
                ((ih e q hqe hq2).2.2.1
                  (Except.ok (Expr.Binary ex' op r')) (by omega))
      -- comparison
      · intro hb
        rw [Parser.comparison]
        obtain ⟨r, q, hq, hqt, hq1, hq2⟩ := (ih e p h hc).2.2.2.2.2.1 (by omega)
        simp only [hq]
        have hqe : eof_at q.tokens e := by rw [hqt]; exact h
        exact Keeps.widen hqt hq1 ((ih e q hqe hq2).2.2.2.2.1 r (by omega))
      -- comparison_loop
      · intro ex hb
        rw [Parser.comparison_loop]
        rcases match_token_total h hc [TokenType.Greater, TokenType.GreaterEqual,
            TokenType.Less, TokenType.LessEqual]
          with hm | ⟨t, hm, ht, _, hne, hlt⟩
        · simp only [hm]
          exact Keeps.self ex hc
        · simp only [hm]
          obtain ⟨op, hop, _⟩ := previous_total
            (p := { p with current := p.current + 1 }) h
            (Nat.succ_le_succ (Nat.zero_le _)) (Nat.succ_le_succ hc)
          simp only [hop]
          have hb2 : 7 * (e - (p.current + 1)) + 4 ≤ fuel := by omega
          obtain ⟨r, q, hq, hqt, hq1, hq2⟩ :=
            (ih e { p with current := p.current + 1 } h hlt).2.2.2.2.2.1 hb2
          simp only [hq]
          have hqt' : q.tokens = p.tokens := hqt
          have hq1' : p.current + 1 ≤ q.current := hq1
          have hqe : eof_at q.tokens e := by rw [hqt']; exact h
          rcases r with msg | r'
          · rcases ex with msg2 | ex'
            · exact ⟨_, q, rfl, hqt', by omega, hq2⟩
            · exact ⟨_, q, rfl, hqt', by omega, hq2⟩
          · rcases ex with msg2 | ex'
            · exact ⟨_, q, rfl, hqt', by omega, hq2⟩
            · exact Keeps.widen hqt' (by omega)
                ((ih e q hqe hq2).2.2.2.2.1
                  (Except.ok (Expr.Binary ex' op r')) (by omega))
      -- addition
      · intro hb
        rw [Parser.addition]
        obtain ⟨r, q, hq, hqt, hq1, hq2⟩ :=
          (ih e p h hc).2.2.2.2.2.2.2.1 (by omega)
        simp only [hq]
        have hqe : eof_at q.tokens e := by rw [hqt]; exact h
        exact Keeps.widen hqt hq1 ((ih e q hqe hq2).2.2.2.2.2.2.1 r (by omega))
      -- addition_loop
      · intro ex hb
        rw [Parser.addition_loop]
        rcases match_token_total h hc [TokenType.Plus, TokenType.Minus]
          with hm | ⟨t, hm, ht, _, hne, hlt⟩
        · simp only [hm]
          exact Keeps.self ex hc
        · simp only [hm]
          obtain ⟨op, hop, _⟩ := previous_total
            (p := { p with current := p.current + 1 }) h
            (Nat.succ_le_succ (Nat.zero_le _)) (Nat.succ_le_succ hc)
          simp only [hop]
          have hb2 : 7 * (e - (p.current + 1)) + 3 ≤ fuel := by omega
          obtain ⟨r, q, hq, hqt, hq1, hq2⟩ :=
            (ih e { p with current := p.current + 1 } h hlt).2.2.2.2.2.2.2.1 hb2
          simp only [hq]
          have hqt' : q.tokens = p.tokens := hqt
          have hq1' : p.current + 1 ≤ q.current := hq1
          have hqe : eof_at q.tokens e := by rw [hqt']; exact h
          rcases r with msg | r'
          · rcases ex with msg2 | ex'
            · exact ⟨_, q, rfl, hqt', by omega, hq2⟩
            · exact ⟨_, q, rfl, hqt', by omega, hq2⟩
          · rcases ex with msg2 | ex'
            · exact ⟨_, q, rfl, hqt', by omega, hq2⟩
            · exact Keeps.widen hqt' (by omega)
                ((ih e q hqe hq2).2.2.2.2.2.2.1
                  (Except.ok (Expr.Binary ex' op r')) (by omega))
      -- multiplication
      · intro hb
        rw [Parser.multiplication]
        obtain ⟨r, q, hq, hqt, hq1, hq2⟩ :=
          (ih e p h hc).2.2.2.2.2.2.2.2.2.1 (by omega)
        simp only [hq]
        have hqe : eof_at q.tokens e := by rw [hqt]; exact h
        exact Keeps.widen hqt hq1
          ((ih e q hqe hq2).2.2.2.2.2.2.2.2.1 r (by omega))
      -- multiplication_loop
      · intro ex hb
        rw [Parser.multiplication_loop]
        rcases match_token_total h hc [TokenType.Star, TokenType.Slash]
          with hm | ⟨t, hm, ht, _, hne, hlt⟩
        · simp only [hm]
          exact Keeps.self ex hc
        · simp only [hm]
          obtain ⟨op, hop, _⟩ := previous_total
            (p := { p with current := p.current + 1 }) h
            (Nat.succ_le_succ (Nat.zero_le _)) (Nat.succ_le_succ hc)
          simp only [hop]
          have hb2 : 7 * (e - (p.current + 1)) + 2 ≤ fuel := by omega
          obtain ⟨r, q, hq, hqt, hq1, hq2⟩ :=
            (ih e { p with current := p.current + 1 } h hlt).2.2.2.2.2.2.2.2.2.1 hb2
          simp only [hq]
          have hqt' : q.tokens = p.tokens := hqt
          have hq1' : p.current + 1 ≤ q.current := hq1
          have hqe : eof_at q.tokens e := by rw [hqt']; exact h
          rcases r with msg | r'
          · rcases ex with msg2 | ex'
            · exact ⟨_, q, rfl, hqt', by omega, hq2⟩
            · exact ⟨_, q, rfl, hqt', by omega, hq2⟩
          · rcases ex with msg2 | ex'
            · exact ⟨_, q, rfl, hqt', by omega, hq2⟩
            · exact Keeps.widen hqt' (by omega)
                ((ih e q hqe hq2).2.2.2.2.2.2.2.2.1
                  (Except.ok (Expr.Binary ex' op r')) (by omega))
      -- unary
      · intro hb
        rw [Parser.unary]
        rcases match_token_total h hc [TokenType.Bang, TokenType.Minus]
          with hm | ⟨t, hm, ht, _, hne, hlt⟩
        · simp only [hm]
          obtain ⟨r, q, hq, hqt, hq1, hq2⟩ :=
            (ih e p h hc).2.2.2.2.2.2.2.2.2.2 (by omega)
          simp only [hq]
          rcases r with msg | r'
          · exact ⟨_, q, rfl, hqt, hq1, hq2⟩
          · exact ⟨_, q, rfl, hqt, hq1, hq2⟩
        · simp only [hm]
          obtain ⟨op, hop, _⟩ := previous_total
            (p := { p with current := p.current + 1 }) h
            (Nat.succ_le_succ (Nat.zero_le _)) (Nat.succ_le_succ hc)
          simp only [hop]
          have hb2 : 7 * (e - (p.current + 1)) + 2 ≤ fuel := by omega
          obtain ⟨r, q, hq, hqt, hq1, hq2⟩ :=
            (ih e { p with current := p.current + 1 } h hlt).2.2.2.2.2.2.2.2.2.1 hb2
          simp only [hq]
          have hqt' : q.tokens = p.tokens := hqt
          have hq1' : p.current + 1 ≤ q.current := hq1
          rcases r with msg | r'
          · exact ⟨_, q, rfl, hqt', by omega, hq2⟩
          · exact ⟨_, q, rfl, hqt', by omega, hq2⟩
      -- primary
      · intro hb
        rw [Parser.primary]
        rcases match_token_total h hc [TokenType.False]
          with hm1 | ⟨t1, hm1, ht1, _, hne1, hlt1⟩
        · simp only [hm1]
          rcases match_token_total h hc [TokenType.True]
            with hm2 | ⟨t2, hm2, ht2, _, hne2, hlt2⟩
          · simp only [hm2]
            rcases match_token_total h hc [TokenType.Nil]
              with hm3 | ⟨t3, hm3, ht3, _, hne3, hlt3⟩
            · simp only [hm3]
              obtain ⟨t, hpeek, ht⟩ := peek_total h hc
              simp only [hpeek]
              by_cases hn : t.token_type.is_number = true
              · rw [if_pos hn]
                have hne := is_number_ne_eof hn
                rw [advance_total h hc ht hne]
                simp only [previous_bump ht]
                exact ⟨_, _, rfl, rfl, Nat.le_succ _, ne_eof_lt h hc ht hne⟩
              · rw [if_neg hn]
                by_cases hs : t.token_type.is_string = true
                · rw [if_pos hs]
                  have hne := is_string_ne_eof hs
                  rw [advance_total h hc ht hne]
                  simp only [previous_bump ht]
                  exact ⟨_, _, rfl, rfl, Nat.le_succ _, ne_eof_lt h hc ht hne⟩
                · rw [if_neg hs]
                  rcases match_token_total h hc [TokenType.LeftParen]
                    with hm4 | ⟨t4, hm4, ht4, _, hne4, hlt4⟩
                  · simp only [hm4]
                    exact Keeps.self _ hc
                  · simp only [hm4]
                    have hb4 : 7 * (e - (p.current + 1)) + 7 ≤ fuel := by omega
                    obtain ⟨r, q, hq, hqt, hq1, hq2⟩ :=
                      (ih e { p with current := p.current + 1 } h hlt4).1 hb4
                    simp only [hq]
                    have hqt' : q.tokens = p.tokens := hqt
                    have hq1' : p.current + 1 ≤ q.current := hq1
                    have hqe : eof_at q.tokens e := by rw [hqt']; exact h
                    rcases consume_total hqe hq2 TokenType.RightParen
                        "Expect ')' after expression"
                      with hcons | ⟨tk, hcons, hlt5⟩
                    · simp only [hcons]
                      exact ⟨_, q, rfl, hqt', by omega, hq2⟩
                    · simp only [hcons]
                      have hlt5' : q.current < e := hlt5
                      have hmono2 : p.current ≤ q.current + 1 := by omega
                      have hle2 : q.current + 1 ≤ e := hlt5'
                      rcases r with msg | r'
                      · exact ⟨_, _, rfl, hqt', hmono2, hle2⟩
                      · exact ⟨_, _, rfl, hqt', hmono2, hle2⟩
            · simp only [hm3]
              obtain ⟨op, hop, _⟩ := previous_total
                (p := { p with current := p.current + 1 }) h
                (Nat.succ_le_succ (Nat.zero_le _)) (Nat.succ_le_succ hc)
              simp only [hop]
              exact ⟨_, _, rfl, rfl, Nat.le_succ _, hlt3⟩
          · simp only [hm2]
            obtain ⟨op, hop, _⟩ := previous_total
              (p := { p with current := p.current + 1 }) h
              (Nat.succ_le_succ (Nat.zero_le _)) (Nat.succ_le_succ hc)
            simp only [hop]
            exact ⟨_, _, rfl, rfl, Nat.le_succ _, hlt2⟩
        · simp only [hm1]
          obtain ⟨op, hop, _⟩ := previous_total
            (p := { p with current := p.current + 1 }) h
            (Nat.succ_le_succ (Nat.zero_le _)) (Nat.succ_le_succ hc)
          simp only [hop]
          exact ⟨_, _, rfl, rfl, Nat.le_succ _, hlt1⟩

theorem newlines_before_slice {s : List Char} {i j : Nat} (hij : i ≤ j) :
    newlines_before s j = newlines_before s i +
      (source_slice s i j).countP (fun c => decide (c = '\n')) := by
  unfold newlines_before source_slice
  conv_lhs => rw [← List.take_append_drop i (s.take j)]
  rw [List.countP_append, List.take_take, Nat.min_eq_left hij]

/-- `parse` on an `EOF`-terminated token list returns normally: the supplied
fuel is sufficient and no index is out of bounds. -/
theorem parse_total {ts : List Token} {e : Nat} (h : eof_at ts e) :
    ∃ r q, (Parser.new ts).parse = POut.ok r q := by
  have hbnd : 7 * (e - 0) + 7 ≤ 7 * ts.length + 7 := by
    have := eof_at_lt h
    omega
  obtain ⟨r, q, hq, _, _, _⟩ :=
    (parser_fuel_spec (7 * ts.length + 7) e (Parser.new ts) h (Nat.zero_le e)).1 hbnd
  exact ⟨r, q, hq⟩

/-- Claim C1: each binary parser level folds repeated same-precedence
operators left-associatively and binds higher levels tighter — parsing the
scanned tokens of "1 + 2 * 3" yields
`Binary(Literal(1), Plus, Binary(Literal(2), Star, Literal(3)))`, and parsing
the scanned tokens of "1 - 2 - 3" yields the left-associative
`Binary(Binary(Literal(1), Minus, Literal(2)), Minus, Literal(3))`. -/
theorem C1_precedence_left_assoc :
    parse_result (scan "1 + 2 * 3".toList).tokens =
      some (Except.ok (Expr.Binary
        (Expr.Literal ⟨TokenType.Number 1, ['1'], 1⟩)
        ⟨TokenType.Plus, ['+'], 1⟩
        (Expr.Binary (Expr.Literal ⟨TokenType.Number 2, ['2'], 1⟩)
          ⟨TokenType.Star, ['*'], 1⟩
          (Expr.Literal ⟨TokenType.Number 3, ['3'], 1⟩)))) ∧
    parse_result (scan "1 - 2 - 3".toList).tokens =
      some (Except.ok (Expr.Binary
        (Expr.Binary (Expr.Literal ⟨TokenType.Number 1, ['1'], 1⟩)
          ⟨TokenType.Minus, ['-'], 1⟩
          (Expr.Literal ⟨TokenType.Number 2, ['2'], 1⟩))
        ⟨TokenType.Minus, ['-'], 1⟩
        (Expr.Literal ⟨TokenType.Number 3, ['3'], 1⟩))) :=
  ⟨by decide, by decide⟩

/-- Claim C7: numeric literal scanning — "123" yields `Number 123`, "1.5"
yields `Number 1.5`, and "1." yields `Number 1` followed by a `Dot` token;
the trailing dot is never consumed as part of the number.  (The `f64` payload
is modelled exactly as a rational; 123.0, 1.5 and 1.0 are exactly
representable in `f64`, so `str::parse::<f64>` returns exactly these
values.) -/
theorem C7_numeric_literals :
    (scan "123".toList).tokens.map Token.token_type =
      [TokenType.Number 123, TokenType.EOF] ∧
    (scan "1.5".toList).tokens.map Token.token_type =
      [TokenType.Number (1.5 : ℚ), TokenType.EOF] ∧
    (scan "1.".toList).tokens.map Token.token_type =
      [TokenType.Number 1, TokenType.Dot, TokenType.EOF] := by
  refine ⟨by decide, ?_, by decide⟩
  rw [show (1.5 : ℚ) = mkRat 15 10 by rw [Rat.mkRat_eq_div]; norm_num]
  rfl

/-- Claim C10 (implicit): `parse` does not require the expression to consume
all input before the `EOF` token — on `[Number 1, Number 2, EOF]` it returns
`Ok (Literal (Number 1))`, stops at cursor position 1 (the trailing
`Number 2` is left unconsumed), and reports no error. -/
theorem C10_trailing_tokens_ignored :
    (Parser.new [⟨TokenType.Number 1, ['1'], 1⟩, ⟨TokenType.Number 2, ['2'], 1⟩,
      ⟨TokenType.EOF, [], 1⟩]).parse =
    POut.ok (Except.ok (Expr.Literal ⟨TokenType.Number 1, ['1'], 1⟩))
      ⟨1, [⟨TokenType.Number 1, ['1'], 1⟩, ⟨TokenType.Number 2, ['2'], 1⟩,
        ⟨TokenType.EOF, [], 1⟩]⟩ := by decide

/-- Claim C2, counterexample: scanning the source "1" produces an `EOF` token
whose lexeme is "1" — `add_token(EOF)` reuses `source[start..current]` with
`start` still at the last token's start — contradicting the claim that the
End-of-Input token's lexeme is always empty. -/
theorem C2_counterexample :
    (scan ['1']).tokens =
      [⟨TokenType.Number 1, ['1'], 1⟩, ⟨TokenType.EOF, ['1'], 1⟩] ∧
    ((scan ['1']).tokens.getLast?).map Token.lexeme = some ['1'] ∧
    (['1'] : List Char) ≠ [] := by decide

/-- Claim C5, counterexample: scanning a string literal containing an
embedded newline records the line where the string ends, not where it
starts — the String token of `"a\nb"` starts at position 0 on line 1 (no
newlines precede it) but carries `line = 2`. -/
theorem C5_counterexample :
    (scan ['"', 'a', '\n', 'b', '"']).tokens.head? =
      some ⟨TokenType.String ['a', '\n', 'b'], ['"', 'a', '\n', 'b', '"'], 2⟩ ∧
    (2 : Nat) ≠ 1 + newlines_before ['"', 'a', '\n', 'b', '"'] 0 := by decide

/-- Claim C3, counterexample: error messages are not propagated unchanged —
on the token sequence `[EOF]` the failing grammar level `primary` produces
"expecting expression", but `parse()` returns "expecting primary" (the
`unary` level replaces any `primary` failure with its own message). -/
theorem C3_counterexample :
    Parser.primary 1 (Parser.new [⟨TokenType.EOF, [], 1⟩]) =
      POut.ok (Except.error "expecting expression")
        (Parser.new [⟨TokenType.EOF, [], 1⟩]) ∧
    (Parser.new [⟨TokenType.EOF, [], 1⟩]).parse =
      POut.ok (Except.error "expecting primary")
        (Parser.new [⟨TokenType.EOF, [], 1⟩]) ∧
    "expecting expression" ≠ "expecting primary" :=
  ⟨by decide, by decide, by decide⟩

/-- Claim C8, counterexample: on the token sequence `[LeftParen, Number 1,
EOF]` (a grouped expression whose closing parenthesis is missing), `parse()`
returns the error "expecting primary" — not "expected ')' after expression"
as the claim states, and not even the code's internal consume message
"Expect ')' after expression". -/
theorem C8_counterexample :
    (Parser.new [⟨TokenType.LeftParen, ['('], 1⟩, ⟨TokenType.Number 1, ['1'], 1⟩,
      ⟨TokenType.EOF, [], 1⟩]).parse =
    POut.ok (Except.error "expecting primary")
      ⟨2, [⟨TokenType.LeftParen, ['('], 1⟩, ⟨TokenType.Number 1, ['1'], 1⟩,
        ⟨TokenType.EOF, [], 1⟩]⟩ ∧
    "expecting primary" ≠ "expected ')' after expression" ∧
    "expecting primary" ≠ "Expect ')' after expression" :=
  ⟨by decide, by decide, by decide⟩

/-- Claim C2 (amended): for every source input, the token sequence produced
by `scan_tokens` ends with exactly one End-of-Input token, and every other
token's lexeme is non-empty and a contiguous slice of the source; however the
`EOF` token's lexeme is not empty in general — it is the tail slice
`source[start..len]` for the final value of `start` (the start of the last
lexeme scanned), and it is empty exactly when forced (e.g. for empty
input). -/
theorem C2_token_stream_invariant (source : List Char) :
    ∃ body a, a ≤ source.length ∧
      (scan source).tokens = body ++
        [⟨TokenType.EOF, source_slice source a source.length,
          (scan source).line⟩] ∧
      (∀ t ∈ body, t.token_type ≠ TokenType.EOF ∧ t.lexeme ≠ [] ∧
        ∃ i j, i < j ∧ j ≤ source.length ∧ t.lexeme = source_slice source i j) ∧
      (source = [] → source_slice source a source.length = []) := by
  obtain ⟨_, _, body, a, ha, htok, hfrom⟩ := scan_spec source
  refine ⟨body, a, ha, htok, ?_, ?_⟩
  · intro t ht
    obtain ⟨hne, i, j, hij, hj, hlex, _⟩ := hfrom t ht
    exact ⟨hne, by rw [hlex]; exact source_slice_ne_nil hij hj,
      i, j, hij, hj, hlex⟩
  · intro hsrc
    subst hsrc
    simp [source_slice]

/-- Claim C5 (amended): every non-`EOF` token's recorded line is 1 plus the
number of newline characters before the END of the token's lexeme slice; for
every token whose lexeme contains no newline (all tokens except multi-line
string literals) this equals 1 plus the number of newlines before the
token's start, as the original claim stated.  For a string literal spanning
lines the recorded line is the line where the string ends, not where it
begins. -/
theorem C5_line_tracking (source : List Char) :
    ∀ t ∈ (scan source).tokens, t.token_type ≠ TokenType.EOF →
      ∃ a b, a < b ∧ b ≤ source.length ∧ t.lexeme = source_slice source a b ∧
        t.line = 1 + newlines_before source b ∧
        ('\n' ∉ t.lexeme → t.line = 1 + newlines_before source a) := by
  intro t ht hne
  obtain ⟨_, _, body, a0, _, htok, hfrom⟩ := scan_spec source
  rw [htok] at ht
  rcases List.mem_append.mp ht with hmem | hmem
  · obtain ⟨_, i, j, hij, hj, hlex, hline⟩ := hfrom t hmem
    refine ⟨i, j, hij, hj, hlex, hline, ?_⟩
    intro hnl
    have hz : (source_slice source i j).countP
        (fun c => decide (c = '\n')) = 0 := by
      rw [List.countP_eq_zero]
      intro c hcmem
      simp only [decide_eq_true_eq]
      intro hceq
      subst hceq
      rw [hlex] at hnl
      exact hnl hcmem
    rw [hline, newlines_before_slice (le_of_lt hij), hz]
    omega
  · rw [List.mem_singleton] at hmem
    subst hmem
    exact absurd rfl hne

/-- Claim C3 (amended): a failure at a sub-level does make every enclosing
level fail, and `parse()` returns an error with no tree — but the error
message is not propagated unchanged: `unary` replaces any failed `primary`'s
message with "expecting primary" (whenever no `!`/`-` token is pending), and
on `[EOF]` the top-level `parse()` accordingly surfaces "expecting primary"
although `primary` failed with "expecting expression". -/
theorem C3_failure_propagation :
    (∀ (fuel : Nat) (p q : Parser) (t : Token) (msg : String),
      p.peek = some t → t.token_type ≠ TokenType.Bang →
      t.token_type ≠ TokenType.Minus →
      Parser.primary fuel p = POut.ok (Except.error msg) q →
      Parser.unary (fuel + 1) p =
        POut.ok (Except.error "expecting primary") q) ∧
    (Parser.new [⟨TokenType.EOF, [], 1⟩]).parse =
      POut.ok (Except.error "expecting primary")
        (Parser.new [⟨TokenType.EOF, [], 1⟩]) := by
  refine ⟨?_, by decide⟩
  intro fuel p q t msg hpeek hb hm hp
  have hfalse := match_token_false hpeek [TokenType.Bang, TokenType.Minus]
    (Or.inr (by
      intro tt htt
      rcases List.mem_cons.mp htt with hh | hh
      · subst hh; exact hb
      · rw [List.mem_singleton] at hh; subst hh; exact hm))
  rw [Parser.unary]
  simp only [hfalse, hp]

/-- Claim C8 (amended): a missing closing parenthesis after a successfully
parsed grouped expression is a syntax error and no tree is returned, but the
message the claim names is not what `parse()` surfaces: `primary` produces
the consume failure "Expect ')' after expression" (not the claim's spelling
"expected ')' after expression"), and the enclosing `unary` then replaces it
with "expecting primary", which is what `parse()` returns. -/
theorem C8_missing_paren :
    ∀ (fuel e : Nat) (p q : Parser) (r : Except String Expr) (t : Token),
      p.peek = some t → t.token_type = TokenType.LeftParen →
      eof_at p.tokens e → p.current ≤ e →
      Parser.expression fuel { p with current := p.current + 1 } = POut.ok r q →
      q.check TokenType.RightParen = some false →
      Parser.primary (fuel + 1) p =
        POut.ok (Except.error "Expect ')' after expression") q ∧
      Parser.unary (fuel + 2) p =
        POut.ok (Except.error "expecting primary") q := by
  intro fuel e p q r t hpeek hlp he hc hexp hrp
  have ht : p.tokens[p.current]? = some t := hpeek
  have hne : t.token_type ≠ TokenType.EOF := by rw [hlp]; decide
  have hf1 := match_token_false hpeek [TokenType.False]
    (Or.inr (by
      intro tt htt
      rw [List.mem_singleton] at htt
      subst htt; rw [hlp]; decide))
  have hf2 := match_token_false hpeek [TokenType.True]
    (Or.inr (by
      intro tt htt
      rw [List.mem_singleton] at htt
      subst htt; rw [hlp]; decide))
  have hf3 := match_token_false hpeek [TokenType.Nil]
    (Or.inr (by
      intro tt htt
      rw [List.mem_singleton] at htt
      subst htt; rw [hlp]; decide))
  have hchk : p.check TokenType.LeftParen = some true := by
    unfold Parser.check
    simp only [is_at_end_eq ht, decide_eq_false hne]
    rw [hpeek, Option.map_some']
    simp [hlp]
  have hmt : p.match_token [TokenType.LeftParen] =
      some (true, { p with current := p.current + 1 }) := by
    rw [Parser.match_token]
    simp only [hchk, advance_total he hc ht hne, Option.map_some']
  have hn : ¬(t.token_type.is_number = true) := by rw [hlp]; decide
  have hs : ¬(t.token_type.is_string = true) := by rw [hlp]; decide
  have hprim : Parser.primary (fuel + 1) p =
      POut.ok (Except.error "Expect ')' after expression") q := by
    rw [Parser.primary]
    simp only [hf1, hf2, hf3, hpeek]
    rw [if_neg hn, if_neg hs]
    simp only [hmt, hexp]
    unfold Parser.consume
    simp only [hrp]
  refine ⟨hprim, ?_⟩
  have hfalse := match_token_false hpeek [TokenType.Bang, TokenType.Minus]
    (Or.inr (by
      intro tt htt
      rcases List.mem_cons.mp htt with hh | hh
      · subst hh; rw [hlp]; decide
      · rw [List.mem_singleton] at hh; subst hh; rw [hlp]; decide))
  rw [Parser.unary]
  simp only [hfalse, hprim]

/-- Claim C4: on every token sequence terminated by a trailing End-of-Input
token, `parse()` returns normally (`Ok` or `Err`): it never reads past the
end of the sequence (no `POut.oob`, the model of a Rust index panic) and the
embedding's fuel never runs out (`POut.fuelOut`), so every cursor operation
stays in bounds. -/
theorem C4_parse_total (ts : List Token)
    (h : ∃ e, ts.length = e + 1 ∧ eof_at ts e) :
    ∃ r q, (Parser.new ts).parse = POut.ok r q ∧
      (Parser.new ts).parse ≠ POut.oob ∧
      (Parser.new ts).parse ≠ POut.fuelOut := by
  obtain ⟨e, _, he⟩ := h
  obtain ⟨r, q, hq⟩ := parse_total he
  exact ⟨r, q, hq, by rw [hq]; exact fun hh => POut.noConfusion hh,
    by rw [hq]; exact fun hh => POut.noConfusion hh⟩

/-- Witness for C4 at the concrete token sequence `[EOF]`. -/
theorem C4_witness :
    (∃ e, ([⟨TokenType.EOF, [], 1⟩] : List Token).length = e + 1 ∧
      eof_at [⟨TokenType.EOF, [], 1⟩] e) ∧
    ∃ r q, (Parser.new [⟨TokenType.EOF, [], 1⟩]).parse = POut.ok r q ∧
      (Parser.new [⟨TokenType.EOF, [], 1⟩]).parse ≠ POut.oob ∧
      (Parser.new [⟨TokenType.EOF, [], 1⟩]).parse ≠ POut.fuelOut :=
  ⟨⟨0, rfl, by unfold eof_at; decide⟩,
    C4_parse_total _ ⟨0, rfl, by unfold eof_at; decide⟩⟩

/-- Claim C9: scanning terminates on every finite input — each `scan_token`
call from an in-bounds cursor consumes at least one character and never
overruns the buffer, and the full scan always drives the cursor exactly to
the end of the source. -/
theorem C9_scan_terminates :
    (∀ st : Scanner, st.current < st.source.length →
      st.current < (Scanner.scan_token st).current ∧
      (Scanner.scan_token st).current ≤ st.source.length) ∧
    (∀ source : List Char, (scan source).current = source.length) := by
  refine ⟨fun st h => ?_, fun source => (scan_spec source).2.1⟩
  obtain ⟨⟨_, _, _, hbound, _, _⟩, hstrict⟩ := scan_token_spec st h
  exact ⟨hstrict, hbound (le_of_lt h)⟩

/-- Witness for C9 at a concrete scanner state over the source "1". -/
theorem C9_witness :
    ((Scanner.new ['1']).current < (Scanner.new ['1']).source.length) ∧
    ((Scanner.new ['1']).current <
      (Scanner.scan_token (Scanner.new ['1'])).current ∧
      (Scanner.scan_token (Scanner.new ['1'])).current ≤
        (Scanner.new ['1']).source.length) :=
  ⟨by decide, C9_scan_terminates.1 _ (by decide)⟩

/-- Claim C6: when a string literal reaches the end of input without a
closing quote, the scanner reports an "Unterminated string." error, emits no
token for it, and consumes the rest of the input without aborting; the full
scan still completes and the token sequence still ends with its End-of-Input
terminator (shown generally and on the concrete input `"abc`). -/
theorem C6_unterminated_string :
    (∀ st : Scanner, st.current ≤ st.source.length →
      (∀ j, st.current ≤ j → j < st.source.length →
        st.source[j]? ≠ some '"') →
      (Scanner.string st).tokens = st.tokens ∧
      (Scanner.string st).errors =
        st.errors ++ [((Scanner.string st).line, "Unterminated string.")] ∧
      (Scanner.string st).current = st.source.length) ∧
    (∀ source : List Char, ∃ body lex,
      (scan source).tokens =
        body ++ [⟨TokenType.EOF, lex, (scan source).line⟩]) ∧
    (scan ('"' :: "abc".toList)).tokens.map Token.token_type =
      [TokenType.EOF] ∧
    (scan ('"' :: "abc".toList)).errors = [(1, "Unterminated string.")] := by
  refine ⟨?_, ?_, by decide, by decide⟩
  · intro st hcur hq
    simp only [Scanner.string]
    obtain ⟨⟨⟨hs, hst, hmono, hbound, hline, _⟩, htk⟩, herr⟩ :=
      string_loop_spec (st.source.length + 1) st
    have hex := string_loop_exhaust (st.source.length + 1) st (by omega)
    have hend : (Scanner.string_loop (st.source.length + 1) st).is_at_end = true := by
      rcases hex with hpk | hend
      · exfalso
        have hlt : (Scanner.string_loop (st.source.length + 1) st).current <
            (Scanner.string_loop (st.source.length + 1) st).source.length := by
          by_contra hh
          rw [peek_at_end (by omega)] at hpk
          exact absurd hpk (by decide)
        obtain ⟨c, hcc⟩ := getElem?_source_exists hlt
        have hcq : c = '"' := by
          rw [← peek_eq_of_lt hcc]
          exact hpk
        subst hcq
        rw [hs] at hcc hlt
        exact hq _ hmono hlt hcc
      · exact hend
    rw [if_pos hend]
    refine ⟨by simp [Scanner.error, htk], by simp [Scanner.error, herr], ?_⟩
    simp only [Scanner.error]
    simp only [Scanner.is_at_end, decide_eq_true_eq] at hend
    rw [hs] at hend
    have := hbound hcur
    omega
  · intro source
    obtain ⟨_, _, body, a, _, htok, _⟩ := scan_spec source
    exact ⟨body, _, htok⟩

/-- Witness for C6 at a concrete scanner state whose remaining input is
empty (so no closing quote can follow). -/
theorem C6_witness :
    ((⟨[], [], 0, 0, 1, []⟩ : Scanner).current ≤
      (⟨[], [], 0, 0, 1, []⟩ : Scanner).source.length) ∧
    ((Scanner.string ⟨[], [], 0, 0, 1, []⟩).tokens =
        (⟨[], [], 0, 0, 1, []⟩ : Scanner).tokens ∧
      (Scanner.string ⟨[], [], 0, 0, 1, []⟩).errors =
        (⟨[], [], 0, 0, 1, []⟩ : Scanner).errors ++
          [((Scanner.string ⟨[], [], 0, 0, 1, []⟩).line,
            "Unterminated string.")] ∧
      (Scanner.string ⟨[], [], 0, 0, 1, []⟩).current =
        (⟨[], [], 0, 0, 1, []⟩ : Scanner).source.length) :=
  ⟨by decide, C6_unterminated_string.1 _ (by decide)
    (fun j _ hj => absurd hj (by simp))⟩

/-- Witness for C5 at the concrete source "1" and its Number token. -/
theorem C5_witness :
    ((⟨TokenType.Number 1, ['1'], 1⟩ : Token) ∈ (scan ['1']).tokens ∧
      (⟨TokenType.Number 1, ['1'], 1⟩ : Token).token_type ≠ TokenType.EOF) ∧
    ∃ a b, a < b ∧ b ≤ (['1'] : List Char).length ∧
      (⟨TokenType.Number 1, ['1'], 1⟩ : Token).lexeme = source_slice ['1'] a b ∧
      (⟨TokenType.Number 1, ['1'], 1⟩ : Token).line =
        1 + newlines_before ['1'] b ∧
      ('\n' ∉ (⟨TokenType.Number 1, ['1'], 1⟩ : Token).lexeme →
        (⟨TokenType.Number 1, ['1'], 1⟩ : Token).line =
          1 + newlines_before ['1'] a) :=
  ⟨⟨by decide, by decide⟩,
    C5_line_tracking ['1'] _ (by decide) (by decide)⟩

/-- Witness for C3's general relabeling statement at the token sequence
`[EOF]`. -/
theorem C3_witness :
    ((Parser.new [⟨TokenType.EOF, [], 1⟩]).peek = some ⟨TokenType.EOF, [], 1⟩ ∧
      (⟨TokenType.EOF, [], 1⟩ : Token).token_type ≠ TokenType.Bang ∧
      (⟨TokenType.EOF, [], 1⟩ : Token).token_type ≠ TokenType.Minus ∧
      Parser.primary 1 (Parser.new [⟨TokenType.EOF, [], 1⟩]) =
        POut.ok (Except.error "expecting expression")
          (Parser.new [⟨TokenType.EOF, [], 1⟩])) ∧
    Parser.unary 2 (Parser.new [⟨TokenType.EOF, [], 1⟩]) =
      POut.ok (Except.error "expecting primary")
        (Parser.new [⟨TokenType.EOF, [], 1⟩]) :=
  ⟨⟨by decide, by decide, by decide, by decide⟩,
    C3_failure_propagation.1 1 (Parser.new [⟨TokenType.EOF, [], 1⟩])
      (Parser.new [⟨TokenType.EOF, [], 1⟩]) ⟨TokenType.EOF, [], 1⟩
      "expecting expression" (by decide) (by decide) (by decide) (by decide)⟩

/-- Witness for C8's general statement at the token sequence
`[LeftParen, Number 1, EOF]`. -/
theorem C8_witness :
    ((Parser.new [⟨TokenType.LeftParen, ['('], 1⟩, ⟨TokenType.Number 1, ['1'], 1⟩,
        ⟨TokenType.EOF, [], 1⟩]).peek = some ⟨TokenType.LeftParen, ['('], 1⟩ ∧
      (⟨TokenType.LeftParen, ['('], 1⟩ : Token).token_type = TokenType.LeftParen ∧
      eof_at [⟨TokenType.LeftParen, ['('], 1⟩, ⟨TokenType.Number 1, ['1'], 1⟩,
        ⟨TokenType.EOF, [], 1⟩] 2) ∧
    (Parser.primary 21 (Parser.new [⟨TokenType.LeftParen, ['('], 1⟩,
        ⟨TokenType.Number 1, ['1'], 1⟩, ⟨TokenType.EOF, [], 1⟩]) =
      POut.ok (Except.error "Expect ')' after expression")
        ⟨2, [⟨TokenType.LeftParen, ['('], 1⟩, ⟨TokenType.Number 1, ['1'], 1⟩,
          ⟨TokenType.EOF, [], 1⟩]⟩ ∧
    Parser.unary 22 (Parser.new [⟨TokenType.LeftParen, ['('], 1⟩,
        ⟨TokenType.Number 1, ['1'], 1⟩, ⟨TokenType.EOF, [], 1⟩]) =
      POut.ok (Except.error "expecting primary")
        ⟨2, [⟨TokenType.LeftParen, ['('], 1⟩, ⟨TokenType.Number 1, ['1'], 1⟩,
          ⟨TokenType.EOF, [], 1⟩]⟩) :=
  ⟨⟨by decide, by decide, by unfold eof_at; decide⟩,
    C8_missing_paren 20 2
      (Parser.new [⟨TokenType.LeftParen, ['('], 1⟩, ⟨TokenType.Number 1, ['1'], 1⟩,
        ⟨TokenType.EOF, [], 1⟩])
      ⟨2, [⟨TokenType.LeftParen, ['('], 1⟩, ⟨TokenType.Number 1, ['1'], 1⟩,
        ⟨TokenType.EOF, [], 1⟩]⟩
      (Except.ok (Expr.Literal ⟨TokenType.Number 1, ['1'], 1⟩))
      ⟨TokenType.LeftParen, ['('], 1⟩
      (by decide) (by decide) (by unfold eof_at; decide) (by decide)
      (by decide) (by decide)⟩

/-- Witness for C2 at the concrete source "1". -/
theorem C2_witness :
    ∃ body a, a ≤ (['1'] : List Char).length ∧
      (scan ['1']).tokens = body ++
        [⟨TokenType.EOF, source_slice ['1'] a (['1'] : List Char).length,
          (scan ['1']).line⟩] ∧
      (∀ t ∈ body, t.token_type ≠ TokenType.EOF ∧ t.lexeme ≠ [] ∧
        ∃ i j, i < j ∧ j ≤ (['1'] : List Char).length ∧
          t.lexeme = source_slice ['1'] i j) ∧
      ((['1'] : List Char) = [] → source_slice ['1'] a (['1'] : List Char).length = []) :=
  C2_token_stream_invariant ['1']
